import Mathlib

/-!
Verification development for the resume structural parser
(`tools/extract_resume.py`).  The Python source is shallowly embedded
over `List Char`; each parser and regular expression of the source is
translated into an executable Lean definition, and the specification's
claims are settled as theorems about those definitions.
-/

set_option maxRecDepth 100000

/-- Strings are modelled as lists of characters. -/
abbrev Str := List Char

/-- ASCII whitespace, the characters matched by the source's `\s`
(inputs to the tool are ASCII text lines). -/
def pyIsWs (c : Char) : Bool :=
  c = ' ' || c = '\t' || c = '\n' || c = '\r' || c = '\x0b' || c = '\x0c'

/-- Decimal digit, the characters matched by `\d`. -/
def pyIsDigit (c : Char) : Bool := '0' ≤ c && c ≤ '9'

/-- ASCII letter. -/
def pyIsAlpha (c : Char) : Bool :=
  ('a' ≤ c && c ≤ 'z') || ('A' ≤ c && c ≤ 'Z')

/-- Word character, the characters matched by `\w` (`[A-Za-z0-9_]`). -/
def pyIsWord (c : Char) : Bool := pyIsAlpha c || pyIsDigit c || c = '_'

/-- ASCII upper-casing of one character, as `str.upper()` acts on the
tool's ASCII input. -/
def pyToUpper (c : Char) : Char :=
  if 'a' ≤ c && c ≤ 'z' then Char.ofNat (c.toNat - 32) else c

/-- ASCII lower-casing of one character. -/
def pyToLower (c : Char) : Char :=
  if 'A' ≤ c && c ≤ 'Z' then Char.ofNat (c.toNat + 32) else c

/-- `str.upper()`. -/
def pyUpper (s : Str) : Str := s.map pyToUpper

/-- `str.lower()`. -/
def pyLower (s : Str) : Str := s.map pyToLower

/-- `str.strip()`: drop whitespace from both ends. -/
def pyStrip (s : Str) : Str :=
  ((s.dropWhile pyIsWs).reverse.dropWhile pyIsWs).reverse

/-- `str.strip(chars)`: drop the given characters from both ends. -/
def pyStripChars (cs : Str) (s : Str) : Str :=
  ((s.dropWhile (cs.contains ·)).reverse.dropWhile (cs.contains ·)).reverse

/-- Replace every maximal whitespace run by one space
(the `re.sub(r"\s+", " ", s)` step of `collapse_ws`). -/
def collapseRuns : Str → Str
  | [] => []
  | [c] => if pyIsWs c then [' '] else [c]
  | a :: b :: r =>
    if pyIsWs a && pyIsWs b then collapseRuns (b :: r)
    else (if pyIsWs a then ' ' else a) :: collapseRuns (b :: r)

/-- `collapse_ws`: collapse whitespace runs to single spaces and trim. -/
def collapse_ws (s : Str) : Str := pyStrip (collapseRuns s)

/-- `str.split(sep)` for a one-character separator; keeps empty pieces. -/
def splitOnChar (c : Char) : Str → List Str
  | [] => [[]]
  | x :: r =>
    if x = c then [] :: splitOnChar c r
    else
      match splitOnChar c r with
      | [] => [[x]]
      | p :: ps => (x :: p) :: ps

/-- Split on any character satisfying a predicate; keeps empty pieces
(used for `re.split(r"[;,]", s)`). -/
def splitOnPred (p : Char → Bool) : Str → List Str
  | [] => [[]]
  | x :: r =>
    if p x then [] :: splitOnPred p r
    else
      match splitOnPred p r with
      | [] => [[x]]
      | q :: qs => (x :: q) :: qs

/-- Substring containment, Python's `needle in hay`. -/
def containsSub (needle hay : Str) : Bool :=
  hay.tails.any (fun t => needle.isPrefixOf t)

/-- `lines_nonempty`: split raw text on newlines, collapse whitespace,
drop lines that became empty. -/
def lines_nonempty (text : Str) : List Str :=
  ((splitOnChar '\n' text).map collapse_ws).filter (· ≠ [])

/-- `norm_key`: uppercase and strip all non-alphanumeric characters. -/
def norm_key (s : Str) : Str :=
  (pyUpper s).filter (fun c => ('A' ≤ c && c ≤ 'Z') || pyIsDigit c)

/-- `unique_preserve` worker: `seen` holds the lower-cased keys already
emitted. -/
def uniquePreserveGo (seen : List Str) : List Str → List Str
  | [] => []
  | x :: xs =>
    let t := pyStrip x
    if t = [] then uniquePreserveGo seen xs
    else if pyLower t ∈ seen then uniquePreserveGo seen xs
    else t :: uniquePreserveGo (pyLower t :: seen) xs

/-- `unique_preserve`: strip items, drop empties, de-duplicate
case-insensitively, keeping first-seen casing and order. -/
def unique_preserve (seq : List Str) : List Str := uniquePreserveGo [] seq

/-- The fixed default github URL (`DEFAULT_GITHUB`). -/
def DEFAULT_GITHUB : Str := "https://github.com/forestzs".data

/-- The fixed subtitle constant (`DEFAULT_SUBTITLE`). -/
def DEFAULT_SUBTITLE : Str :=
  "Software Engineer • USC MS Spatial Data Science • Los Angeles".data

/-- The closed set of canonical section headers (`SECTION_HEADERS`). -/
def SECTION_HEADERS : List Str :=
  [ "SUMMARY".data, "EDUCATION".data, "EXPERIENCE".data,
    "PROJECTS".data, "TECHNICAL SKILLS".data, "SKILLS".data ]

/-- `SECTION_KEYS`: the headers normalised through `norm_key`. -/
def SECTION_KEYS : List Str := SECTION_HEADERS.map norm_key

/-- `PUNCT_ONLY_RE` (`^[\)\(\]\[\{\}]+$`): the line consists solely of
bracket noise. -/
def punctOnly (s : Str) : Bool :=
  s ≠ [] && s.all (fun c => c ∈ [')', '(', ']', '[', '{', '}'])

/-- `is_any_header_line`: the normalised line equals one of the
normalised headers. -/
def is_any_header_line (line : Str) : Bool := norm_key line ∈ SECTION_KEYS

/-- First index satisfying a predicate, mirroring a scanning `for` loop. -/
def findIdxO (p : α → Bool) : List α → Option Nat
  | [] => none
  | a :: r => if p a then some 0 else (findIdxO p r).map (· + 1)

/-- `find_header_index`: first line whose `norm_key` equals the
header's. -/
def find_header_index (lines : List Str) (header : Str) : Option Nat :=
  findIdxO (fun ln => norm_key ln = norm_key header) lines

/-- `slice_section`: the half-open range strictly between the header
line and the next line matching any header (or end of input). -/
def slice_section (lines : List Str) (header : Str) : List Str :=
  match find_header_index lines header with
  | none => []
  | some s =>
    let rest := lines.drop (s + 1)
    rest.take ((findIdxO is_any_header_line rest).getD rest.length)

/-- `parse_name`: the first line, stripped; empty when there are no
lines. -/
def parse_name (lines : List Str) : Str :=
  match lines with
  | [] => []
  | x :: _ => pyStrip x

/-- Case-insensitive literal test: the lowercase word `w` begins the
string `s` (compared lower-cased). -/
def ciStarts (w s : Str) : Bool := w.isPrefixOf (pyLower s)

/-- Month name forms of `MONTH_RE`, lower-cased, listed in the regex's
alternation and backtracking order (longer optional parts first; note
`Sep(?:t)?(?:ember)?` also admits the form "sepember"). -/
def monthForms : List Str :=
  [ "january".data, "jan".data, "february".data, "feb".data,
    "march".data, "mar".data, "april".data, "apr".data, "may".data,
    "june".data, "jun".data, "july".data, "jul".data,
    "august".data, "aug".data,
    "september".data, "sept".data, "sepember".data, "sep".data,
    "october".data, "oct".data, "november".data, "nov".data,
    "december".data, "dec".data ]

/-- Remainders after matching one month-name form at the head of `s`,
in backtracking order. -/
def monthRems (s : Str) : List Str :=
  monthForms.filterMap
    (fun f => if ciStarts f s then some (s.drop f.length) else none)

/-- Drop a maximal whitespace run (`\s*` whose follower is never a
whitespace character). -/
def dropWs (s : Str) : Str := s.dropWhile pyIsWs

/-- Match `\d{4}` at the head of `s`, returning the remainder. -/
def take4Digits (s : Str) : Option Str :=
  if (s.take 4).length = 4 && (s.take 4).all pyIsDigit then some (s.drop 4)
  else none

/-- Remainders after matching `MONTH\s*\d{4}` at the head of `s`. -/
def afterMonthYear (s : Str) : List Str :=
  (monthRems s).filterMap (fun r => take4Digits (dropWs r))

/-- The dash characters of `DATE_RANGE_RE`'s class `[-–]`: hyphen and
en-dash (the em-dash is not in the class). -/
def dashChars : Str := ['-', '–']

/-- Remainders after matching the whole `DATE_RANGE_RE` body
`MONTH\s*\d{4}\s*[-–]\s*MONTH\s*\d{4}` at the head of `s`, in
backtracking order. -/
def drRems (s : Str) : List Str :=
  (afterMonthYear s).flatMap
    (fun r =>
      match dropWs r with
      | c :: rest =>
        if c ∈ dashChars then afterMonthYear (dropWs rest) else []
      | [] => [])

/-- `DATE_RANGE_RE.fullmatch`. -/
def dateRangeFull (s : Str) : Bool := (drRems s).any (· = [])

/-- `DATE_RANGE_RE.search`: leftmost match as `(start, end)` offsets,
the end taken from the first path in backtracking order. -/
def drSearchGo (off : Nat) : Str → Option (Nat × Nat)
  | [] => none
  | s@(_ :: t) =>
    match (drRems s).head? with
    | some r => some (off, off + (s.length - r.length))
    | none => drSearchGo (off + 1) t

/-- `DATE_RANGE_RE.search` from position 0. -/
def dateRangeSearch (s : Str) : Option (Nat × Nat) := drSearchGo 0 s

/-- `MONTH_YEAR_RE.match`: the line starts with `MONTH\s*\d{4}`. -/
def monthYearStarts (s : Str) : Bool := afterMonthYear s ≠ []

/-- Four decimal digits begin `s`. -/
def fourDigitsAt (s : Str) : Bool :=
  (s.take 4).length = 4 && (s.take 4).all pyIsDigit

/-- `re.search(r"\d{4}.*[-–].*\d{4}", seg)` within one newline-free
segment (`.` does not match a newline). -/
def looseSeg (s : Str) : Bool :=
  s.tails.any (fun t =>
    fourDigitsAt t &&
    (t.drop 4).tails.any (fun u =>
      match u with
      | c :: rest => c ∈ dashChars && rest.tails.any fourDigitsAt
      | [] => false))

/-- `re.search(r"\d{4}.*[-–].*\d{4}", s)`: some newline-free segment of
`s` contains the pattern. -/
def looseSearch (s : Str) : Bool := (splitOnChar '\n' s).any looseSeg

/-- `is_time_only_line`: a full `DATE_RANGE_RE` match, or the relaxed
branch `MONTH_YEAR_RE.match` plus a loose `\d{4}.*[-–].*\d{4}`. -/
def is_time_only_line (line : Str) : Bool :=
  let s := pyStrip line
  dateRangeFull s || (monthYearStarts s && looseSearch s)

/-- `extract_time_and_title`: if the line contains a date range, return
the text before it (stripped of `" -–—|"`) and the matched range. -/
def extract_time_and_title (line : Str) : Option (Str × Str) :=
  match dateRangeSearch line with
  | none => none
  | some (st, en) =>
    some (pyStripChars " -–—|".data (line.take st),
          pyStrip ((line.drop st).take (en - st)))

/-- `BULLET_RE` (`^[■\-\*]\s*(.+)$`): marker, optional whitespace, and
a non-empty newline-free body (a single trailing newline is tolerated
by `$`). -/
def bulletMatch (s : Str) : Option Str :=
  match s with
  | [] => none
  | c :: rest =>
    if c ∈ ['■', '-', '*'] then
      let core := if rest.getLast? = some '\n' then rest.dropLast else rest
      if core ≠ [] && !core.contains '\n' then
        some (core.drop (min (core.takeWhile pyIsWs).length (core.length - 1)))
      else none
    else none

/-- The character class `[\d\-\s\(\)]` of `PHONE_RE`. -/
def phoneClass (c : Char) : Bool :=
  pyIsDigit c || c = '-' || pyIsWs c || c = '(' || c = ')'

/-- Largest index of `s` whose character satisfies `p`. -/
def lastIdxWhere (p : Char → Bool) (s : Str) : Option Nat :=
  (findIdxO p s.reverse).map (fun k => s.length - 1 - k)

/-- `PHONE_RE` (`\+?\d[\d\-\s\(\)]{7,}\d`) matched at the head of `s`:
the greedy run backtracks until its final character is a digit. -/
def matchPhoneAt (s : Str) : Option Str :=
  let plus : Bool := match s with | '+' :: _ => true | _ => false
  let s1 := if plus then s.drop 1 else s
  match s1 with
  | d :: t =>
    if pyIsDigit d then
      let run := t.takeWhile phoneClass
      match lastIdxWhere pyIsDigit run with
      | some j =>
        if 7 ≤ j then
          some ((if plus then ['+'] else []) ++ d :: (run.take j ++ [run.getD j ' ']))
        else none
      | none => none
    else none
  | [] => none

/-- `PHONE_RE.search`: leftmost match. -/
def phoneSearchGo : Str → Option Str
  | [] => none
  | s@(_ :: t) =>
    match matchPhoneAt s with
    | some m => some m
    | none => phoneSearchGo t

/-- `PHONE_RE.search` from position 0. -/
def phoneSearch (s : Str) : Option Str := phoneSearchGo s

/-- The local-part class `[A-Z0-9._%+\-]` of `EMAIL_RE`. -/
def emailLocalClass (c : Char) : Bool :=
  pyIsAlpha c || pyIsDigit c || c ∈ ['.', '_', '%', '+', '-']

/-- The domain class `[A-Z0-9.\-]` of `EMAIL_RE`. -/
def emailDomClass (c : Char) : Bool :=
  pyIsAlpha c || pyIsDigit c || c ∈ ['.', '-']

/-- Backtrack over the greedy domain run: the largest dot position
`k ≥ 1` in `dom` followed by at least two letters, together with the
greedy letter run after it. -/
def findEmailKGo (dom : Str) : Nat → Option (Nat × Str)
  | 0 => none
  | k + 1 =>
    if dom.getD (k + 1) ' ' = '.' then
      let L := (dom.drop (k + 2)).takeWhile pyIsAlpha
      if 2 ≤ L.length then some (k + 1, L) else findEmailKGo dom k
    else findEmailKGo dom k

/-- `EMAIL_RE` matched at the head of `s`. -/
def matchEmailAt (s : Str) : Option Str :=
  let loc := s.takeWhile emailLocalClass
  if loc = [] then none
  else
    match s.drop loc.length with
    | '@' :: rest =>
      let dom := rest.takeWhile emailDomClass
      match findEmailKGo dom (dom.length - 1) with
      | some (k, L) => some (loc ++ '@' :: (dom.take k ++ '.' :: L))
      | none => none
    | _ => none

/-- `EMAIL_RE.search`: leftmost match. -/
def emailSearchGo : Str → Option Str
  | [] => none
  | s@(_ :: t) =>
    match matchEmailAt s with
    | some m => some m
    | none => emailSearchGo t

/-- `EMAIL_RE.search` from position 0. -/
def emailSearch (s : Str) : Option Str := emailSearchGo s

/-- The tail class `[^\s|]` of `URL_RE`. -/
def urlTailClass (c : Char) : Bool := !pyIsWs c && c ≠ '|'

/-- `URL_RE` (`https?://[^\s|]+`) matched at the head of `s`: returns
the matched text and the remainder after it. -/
def matchUrlAt (s : Str) : Option (Str × Str) :=
  if ciStarts "http".data s then
    let s1 := s.drop 4
    let scheme : Option Nat :=
      match s1 with
      | c :: r =>
        if (c = 's' || c = 'S') && ciStarts "://".data r then some 4
        else if ciStarts "://".data s1 then some 3
        else none
      | [] => none
    match scheme with
    | some k =>
      let rest := s1.drop k
      let run := rest.takeWhile urlTailClass
      if run = [] then none
      else some (s.take (4 + k + run.length), rest.drop run.length)
    | none => none
  else none

/-- `URL_RE.findall`: all non-overlapping matches, scanning left to
right (fuel-driven recursion; each step consumes at least one
character). -/
def urlFindallGo : Nat → Str → List Str
  | 0, _ => []
  | _ + 1, [] => []
  | fuel + 1, s@(_ :: t) =>
    match matchUrlAt s with
    | some (m, rem) => m :: urlFindallGo fuel rem
    | none => urlFindallGo fuel t

/-- `URL_RE.findall` with sufficient fuel. -/
def urlFindall (s : Str) : List Str := urlFindallGo s.length s

/-- Uppercase ASCII letter. -/
def isUpperAZ (c : Char) : Bool := 'A' ≤ c && c ≤ 'Z'

/-- Tail of `LOC_RE` after the comma: `\s*[A-Z]{2}\b`. -/
def locCheckFrom (rest : Str) : Bool :=
  match dropWs rest with
  | a :: b :: rr =>
    isUpperAZ a && isUpperAZ b &&
    (match rr with | [] => true | c :: _ => !pyIsWord c)
  | _ => false

/-- Scan for a comma position of `LOC_RE` (`.+,\s*[A-Z]{2}\b`,
prefix-anchored): `.` cannot cross a newline. -/
def locGo : Nat → Str → Bool
  | _, [] => false
  | n, c :: rest =>
    if c = '\n' then false
    else (c = ',' && 1 ≤ n && locCheckFrom rest) || locGo (n + 1) rest

/-- `LOC_RE.match`. -/
def locMatch (s : Str) : Bool := locGo 0 s

/-- `looks_like_location_line`: `LOC_RE` prefix match, or a short
comma-bearing line without a date range. -/
def looks_like_location_line (s : Str) : Bool :=
  locMatch s ||
  (s.contains ',' && s.length ≤ 28 && (dateRangeSearch s).isNone)

/-- The contact record produced by `parse_contact_line`. -/
structure ContactInfo where
  phone : Str
  email : Str
  linkedin : Str
  github : Str
  location : Str
deriving DecidableEq, Repr

/-- `parse_contact_line`: extract phone, email, URLs and location from
the line after the name line. -/
def parse_contact_line (lines : List Str) : ContactInfo :=
  match lines with
  | _ :: line :: _ =>
    let parts := (splitOnChar '|' line).map pyStrip
    let phone := match phoneSearch line with
      | some m => pyStrip m
      | none => []
    let email := match emailSearch line with
      | some m => pyStrip m
      | none => []
    let lg := (urlFindall line).foldl
      (fun (p : Str × Str) u =>
        if containsSub "linkedin.com".data (pyLower u) then (pyStrip u, p.2)
        else if containsSub "github.com".data (pyLower u) then (p.1, pyStrip u)
        else p) ([], [])
    let location := ((parts.reverse).find? (fun p =>
        p ≠ [] && (emailSearch p).isNone && (urlFindall p).isEmpty &&
        !((phoneSearch p).isSome && p.length ≤ 25))).getD []
    { phone := phone, email := email, linkedin := lg.1,
      github := if lg.2 = [] then DEFAULT_GITHUB else lg.2,
      location := location }
  | _ =>
    { phone := [], email := [], linkedin := [],
      github := DEFAULT_GITHUB, location := [] }

/-- Join strings with a separator character. -/
def joinWith (c : Char) : List Str → Str
  | [] => []
  | [x] => x
  | x :: r => x ++ c :: joinWith c r

/-- The keyword alternation of `parse_summary`'s guard split
(`\b(University of|EDUCATION|PROJECTS|TECHNICAL SKILLS|SKILLS)\b`),
lower-cased. -/
def summKws : List Str :=
  [ "university of".data, "education".data, "projects".data,
    "technical skills".data, "skills".data ]

/-- One keyword matches case-insensitively at the head of `s` with a
word boundary after it. -/
def summKwAt (kw s : Str) : Bool :=
  kw.isPrefixOf (pyLower s) &&
  (match s.drop kw.length with | [] => true | c :: _ => !pyIsWord c)

/-- A word-bounded keyword occurrence starts here, given the preceding
character (`none` at the start of the text). -/
def summBounded (prev : Option Char) (s : Str) : Bool :=
  (match prev with | none => true | some c => !pyIsWord c) &&
  summKws.any (fun kw => summKwAt kw s)

/-- Scan for the first word-bounded keyword occurrence; returns its
offset into the scanned suffix. -/
def summScanGo : Option Char → Str → Option Nat
  | _, [] => none
  | prev, s@(c :: rest) =>
    if summBounded prev s then some 0
    else (summScanGo (some c) rest).map (· + 1)

/-- `parse_summary`: join the SUMMARY section, collapse whitespace, and
keep only the text before the first word-bounded guard keyword. -/
def parse_summary (lines : List Str) : Str :=
  let sec := slice_section lines "SUMMARY".data
  if sec = [] then []
  else
    let txt := collapse_ws (joinWith ' ' sec)
    pyStrip (txt.take ((summScanGo none txt).getD txt.length))

/-- One education entry. -/
structure EduEntry where
  school : Str
  degree : Str
deriving DecidableEq, Repr

/-- The merge pass of `parse_education`: a location-looking line is
glued onto the previous line unless that line ends with a comma. -/
def eduMerge (sec : List Str) : List Str :=
  sec.foldl
    (fun acc ln =>
      match acc.getLast? with
      | none => [ln]
      | some lst =>
        if looks_like_location_line ln && !(lst.getLast? = some ',') then
          acc.dropLast ++ [lst ++ ' ' :: ln]
        else acc ++ [ln])
    []

/-- The pairing loop of `parse_education`: consecutive merged lines
become (school, degree) pairs; bracket-noise school lines are skipped
one at a time. -/
def eduPair : List Str → List EduEntry
  | [] => []
  | [a] =>
    let school := pyStrip a
    if punctOnly school || school = ")".data || school = "(".data then []
    else if school ≠ [] then [⟨school, []⟩] else []
  | a :: b :: r =>
    let school := pyStrip a
    let degree := pyStrip b
    if punctOnly school || school = ")".data || school = "(".data then
      eduPair (b :: r)
    else if school ≠ [] then ⟨school, degree⟩ :: eduPair r
    else eduPair r

/-- `parse_education`: slice the EDUCATION section, merge location
lines, and pair lines off as (school, degree). -/
def parse_education (lines : List Str) : List EduEntry :=
  eduPair (eduMerge (slice_section lines "EDUCATION".data))

/-- One project entry. -/
structure ProjEntry where
  title : Str
  time : Str
  bullets : List Str
deriving DecidableEq, Repr

/-- The scanning state of `parse_projects`: emitted entries, the entry
under construction, and a tentative pending title. -/
structure PState where
  projects : List ProjEntry
  cur : Option ProjEntry
  pending : Option Str
deriving DecidableEq, Repr

/-- `push` inside `parse_projects`: normalise bullets, drop empty ones,
and keep the entry only if title, time or bullets is non-empty. -/
def pushProj (st : PState) : PState :=
  match st.cur with
  | none => st
  | some c =>
    let bs := (c.bullets.map collapse_ws).filter (· ≠ [])
    if c.title ≠ [] || c.time ≠ [] || bs ≠ [] then
      { projects := st.projects ++ [{ c with bullets := bs }],
        cur := none, pending := st.pending }
    else { st with cur := none }

/-- Python truthiness of the pending title: present and non-empty. -/
def pendingTruthy (p : Option Str) : Bool :=
  match p with
  | some t => t ≠ []
  | none => false

/-- One step of the `parse_projects` loop over a section line. -/
def projStep (st : PState) (ln0 : Str) : PState :=
  let ln := pyStrip ln0
  match extract_time_and_title ln with
  | some (title, time) =>
    let st1 := pushProj st
    { st1 with cur := some ⟨title, time, []⟩, pending := none }
  | none =>
    let startsBullet : Bool := match ln with | '■' :: _ => true | _ => false
    if st.cur.isNone && !startsBullet && !is_time_only_line ln then
      { st with pending := some ln }
    else if st.cur.isNone && pendingTruthy st.pending && is_time_only_line ln then
      let st1 := pushProj st
      { st1 with cur := some ⟨st1.pending.getD [], ln, []⟩, pending := none }
    else
      match bulletMatch ln, st.cur with
      | some g, some c =>
        { st with cur := some { c with bullets := c.bullets ++ [pyStrip g] } }
      | _, _ =>
        let st1 :=
          if st.cur.isNone && pendingTruthy st.pending && !is_time_only_line ln
          then { st with pending := none } else st
        match st1.cur with
        | some c =>
          if c.bullets ≠ [] then
            { st1 with cur := some { c with
                bullets := c.bullets.dropLast ++
                  [pyStrip ((c.bullets.getLastD []) ++ ' ' :: ln)] } }
          else { st1 with cur := some { c with bullets := [ln] } }
        | none => st1

/-- `parse_projects`: run the state machine over the PROJECTS section
and flush the final entry. -/
def parse_projects (lines : List Str) : List ProjEntry :=
  let sec := slice_section lines "PROJECTS".data
  (pushProj (sec.foldl projStep ⟨[], none, none⟩)).projects

/-- `split_csvish`: split on commas/semicolons into trimmed non-empty
tokens. -/
def split_csvish (s : Str) : List Str :=
  ((splitOnPred (fun c => c = ';' || c = ',') s).map pyStrip).filter (· ≠ [])

/-- A component of a label pattern in `parse_skills`'s `grab`: a
case-insensitive literal, or an optional whitespace run (`\s*`). -/
inductive LPiece where
  | lit (w : Str)
  | ws
  | ws1
deriving DecidableEq, Repr

/-- Run the pieces of one label alternative at the head of `s`,
returning the remainder (`\s*` and `\s+` are maximal; every follower in
the source's patterns is a non-whitespace literal). -/
def runPieces : List LPiece → Str → Option Str
  | [], s => some s
  | LPiece.lit w :: ps, s =>
    if ciStarts w s then runPieces ps (s.drop w.length) else none
  | LPiece.ws :: ps, s => runPieces ps (dropWs s)
  | LPiece.ws1 :: ps, s =>
    let w := s.takeWhile pyIsWs
    if w = [] then none else runPieces ps (s.drop w.length)

/-- Label alternatives for `Languages?`. -/
def langAlts : List (List LPiece) :=
  [ [LPiece.lit "languages".data], [LPiece.lit "language".data] ]

/-- Label alternatives for
`Frameworks\s*&\s*Libraries|Frameworks\s*/\s*Libraries|Frameworks|Libraries`. -/
def fwAlts : List (List LPiece) :=
  [ [LPiece.lit "frameworks".data, LPiece.ws, LPiece.lit "&".data,
     LPiece.ws, LPiece.lit "libraries".data],
    [LPiece.lit "frameworks".data, LPiece.ws, LPiece.lit "/".data,
     LPiece.ws, LPiece.lit "libraries".data],
    [LPiece.lit "frameworks".data], [LPiece.lit "libraries".data] ]

/-- Label alternatives for
`Databases\s*&\s*Cach(?:e|ing)|Databases|Database`. -/
def dbAlts : List (List LPiece) :=
  [ [LPiece.lit "databases".data, LPiece.ws, LPiece.lit "&".data,
     LPiece.ws, LPiece.lit "cache".data],
    [LPiece.lit "databases".data, LPiece.ws, LPiece.lit "&".data,
     LPiece.ws, LPiece.lit "caching".data],
    [LPiece.lit "databases".data], [LPiece.lit "database".data] ]

/-- Label alternatives for `Cloud\s*&\s*DevOps|Cloud|DevOps`. -/
def cloudAlts : List (List LPiece) :=
  [ [LPiece.lit "cloud".data, LPiece.ws, LPiece.lit "&".data,
     LPiece.ws, LPiece.lit "devops".data],
    [LPiece.lit "cloud".data], [LPiece.lit "devops".data] ]

/-- Label alternatives for `Tools\s*&\s*Testing|Tools|Testing`. -/
def toolsAlts : List (List LPiece) :=
  [ [LPiece.lit "tools".data, LPiece.ws, LPiece.lit "&".data,
     LPiece.ws, LPiece.lit "testing".data],
    [LPiece.lit "tools".data], [LPiece.lit "testing".data] ]

/-- `([^\n]+)` after backtracking the greedy `\s*`: the largest
whitespace skip `k` that still leaves a leading non-newline character,
and the greedy newline-free group from there. -/
def groupFrom (rest : Str) : Nat → Option Str
  | 0 =>
    match rest with
    | c :: _ => if c ≠ '\n' then some (rest.takeWhile (· ≠ '\n')) else none
    | [] => none
  | k + 1 =>
    match rest.drop (k + 1) with
    | c :: _ =>
      if c ≠ '\n' then some ((rest.drop (k + 1)).takeWhile (· ≠ '\n'))
      else groupFrom rest k
    | [] => groupFrom rest k

/-- The `\s*:\s*([^\n]+)` continuation after a label. -/
def afterLabel (r : Str) : Option Str :=
  match dropWs r with
  | ':' :: rest => groupFrom rest (rest.takeWhile pyIsWs).length
  | _ => none

/-- Try each label alternative in order, each with the full
continuation, mirroring the regex's backtracking. -/
def tryAlts : List (List LPiece) → Str → Option Str
  | [], _ => none
  | a :: rest, s =>
    match runPieces a s with
    | some r =>
      match afterLabel r with
      | some g => some g
      | none => tryAlts rest s
    | none => tryAlts rest s

/-- Match `\s*[■\-\*]?\s*(?:LABEL)\s*:\s*([^\n]+)` right after the
`(?:^|\n)` anchor; the optional marker is tried consumed first. -/
def grabMatchCore (alts : List (List LPiece)) (s : Str) : Option Str :=
  let s1 := dropWs s
  match s1 with
  | c :: rest =>
    if c ∈ ['■', '-', '*'] then
      match tryAlts alts (dropWs rest) with
      | some g => some g
      | none => tryAlts alts s1
    else tryAlts alts s1
  | [] => tryAlts alts s1

/-- Scan the later `\n` anchor positions in order. -/
def grabNl (alts : List (List LPiece)) : Str → Option Str
  | [] => none
  | c :: rest =>
    if c = '\n' then
      match grabMatchCore alts rest with
      | some g => some g
      | none => grabNl alts rest
    else grabNl alts rest

/-- `re.search` of the whole `grab` pattern: the `^` anchor first, then
each `\n` anchor left to right. -/
def grabScan (alts : List (List LPiece)) (text : Str) : Option Str :=
  match grabMatchCore alts text with
  | some g => some g
  | none => grabNl alts text

/-- `grab` inside `parse_skills`: tokens of the first matching label
line, or `[]`. -/
def grab (alts : List (List LPiece)) (text : Str) : List Str :=
  match grabScan alts text with
  | none => []
  | some g =>
    let val := pyStrip g
    if val = [] then [] else split_csvish val

/-- The categorised skills output. -/
structure SkillsOut where
  languages : List Str
  frameworks : List Str
  tools : List Str
deriving DecidableEq, Repr

/-- The section used by `parse_skills`: TECHNICAL SKILLS, with SKILLS
as fallback. -/
def skillsSec (lines : List Str) : List Str :=
  let s1 := slice_section lines "TECHNICAL SKILLS".data
  if s1 = [] then slice_section lines "SKILLS".data else s1

/-- `parse_skills`: grab each category's first labelled line, split the
values, and de-duplicate; databases, cloud and tools/testing are
concatenated in that order into `tools`. -/
def parse_skills (lines : List Str) : SkillsOut :=
  let sec := skillsSec lines
  if sec = [] then ⟨[], [], []⟩
  else
    let text := joinWith '\n' sec
    { languages := unique_preserve (grab langAlts text),
      frameworks := unique_preserve (grab fwAlts text),
      tools := unique_preserve
        (grab dbAlts text ++ grab cloudAlts text ++ grab toolsAlts text) }

/-- The alternation of `HEADERS_SPLIT_RE`
(`\b(SUMMARY|EDUCATION|EXPERIENCE|PROJECTS|TECHNICAL\s+SKILLS|SKILLS)\b`),
in order, as label pieces. -/
def headerAlts : List (List LPiece) :=
  [ [LPiece.lit "summary".data], [LPiece.lit "education".data],
    [LPiece.lit "experience".data], [LPiece.lit "projects".data],
    [LPiece.lit "technical".data, LPiece.ws1, LPiece.lit "skills".data],
    [LPiece.lit "skills".data] ]

/-- Match one `HEADERS_SPLIT_RE` alternative at the head of `s`
(in order), requiring the trailing word boundary; returns the consumed
length. -/
def headerAltsAt : List (List LPiece) → Str → Option Nat
  | [], _ => none
  | a :: rest, s =>
    match runPieces a s with
    | some r =>
      match r with
      | [] => some (s.length - r.length)
      | c :: _ =>
        if !pyIsWord c then some (s.length - r.length)
        else headerAltsAt rest s
    | none => headerAltsAt rest s

/-- `HEADERS_SPLIT_RE.search` scan: leftmost position with a leading
word boundary and a matching alternative. -/
def headerScanGo (off : Nat) (prev : Option Char) : Str → Option (Nat × Nat)
  | [] => none
  | s@(c :: rest) =>
    let bOk : Bool := match prev with | none => true | some pc => !pyIsWord pc
    match (if bOk then headerAltsAt headerAlts s else none) with
    | some len => some (off, off + len)
    | none => headerScanGo (off + 1) (some c) rest

/-- `HEADERS_SPLIT_RE.search`: the `(start, end)` of the leftmost
match. -/
def headerSearch (s : Str) : Option (Nat × Nat) := headerScanGo 0 none s

/-- `str.replace("  ", " ")`: replace non-overlapping double spaces
left to right. -/
def pyReplaceDS : Str → Str
  | [] => []
  | [c] => [c]
  | a :: b :: r =>
    if a = ' ' && b = ' ' then ' ' :: pyReplaceDS r
    else a :: pyReplaceDS (b :: r)

/-- The `ln.strip().upper() in SECTION_HEADERS` test of
`preprocess_lines`. -/
def headerCheckB (l : Str) : Bool :=
  SECTION_HEADERS.contains (pyUpper (pyStrip l))

/-- The per-line pass of `preprocess_lines`: collapse whitespace, drop
empty and bracket-noise lines, split multi-bullet lines, split a header
glued to adjacent content. -/
def processLine (ln0 : Str) : List Str :=
  let ln := collapse_ws ln0
  if ln = [] then []
  else if punctOnly ln then []
  else if ln.contains '■' && !headerCheckB ln then
    match (splitOnChar '■' ln).map pyStrip with
    | [] => []
    | p0 :: ps =>
      (if p0 ≠ [] then [p0] else []) ++
        (ps.filter (· ≠ [])).map (fun p => '■' :: ' ' :: p)
  else
    match headerSearch ln with
    | some (st, en) =>
      if !headerCheckB ln then
        let before := pyStrip (ln.take st)
        let after := pyStrip (ln.drop en)
        (if before ≠ [] then [before] else []) ++
          [pyReplaceDS (pyUpper ((ln.drop st).take (en - st)))] ++
          (if after ≠ [] then [after] else [])
      else [ln]
    | none => [ln]

/-- The second pass of `preprocess_lines`: re-collapse, drop empties
and bracket noise, collapse immediately-adjacent duplicates. -/
def pass2Go : Option Str → List Str → List Str
  | _, [] => []
  | prev, x0 :: r =>
    let x := collapse_ws x0
    if x = [] || punctOnly x then pass2Go prev r
    else if prev = some x then pass2Go prev r
    else x :: pass2Go (some x) r

/-- `preprocess_lines`: the per-line pass followed by the cleanup
pass. -/
def preprocess_lines (lines : List Str) : List Str :=
  pass2Go none (lines.flatMap processLine)

/-- The structured record built by `build_structured` (the impure
timestamp `iso_now()` is passed in as `now`). -/
structure ResumeRecord where
  generated_at : Str
  source : Str
  name : Str
  subtitle : Str
  summary : Str
  resumeUrl : Str
  contact : ContactInfo
  education : List EduEntry
  projects : List ProjEntry
  skills : SkillsOut
deriving DecidableEq, Repr

/-- `build_structured`: normalise the raw text into lines and assemble
the full record; the name falls back to a fixed literal when empty. -/
def build_structured (now : Str) (raw_text : Str) : ResumeRecord :=
  let ln := preprocess_lines (lines_nonempty raw_text)
  { generated_at := now,
    source := "resume.pdf".data,
    name := (let n := parse_name ln
             if n = [] then "Zhengshu Zhang".data else n),
    subtitle := DEFAULT_SUBTITLE,
    summary := parse_summary ln,
    resumeUrl := "./resume.pdf".data,
    contact := parse_contact_line ln,
    education := parse_education ln,
    projects := parse_projects ln,
    skills := parse_skills ln }

/-- Modelled from the claim's words (C2): the line contains one of the
institution keywords "University", "College", "Institute". -/
def specInstCue (s : Str) : Bool :=
  containsSub "University".data s || containsSub "College".data s ||
  containsSub "Institute".data s

/-- Modelled from the claim's words (C2): the line ends with a
two-letter region code preceded by a comma (optionally spaced). -/
def specEndsRegion (s : Str) : Bool :=
  match s.reverse with
  | b :: a :: r =>
    isUpperAZ a && isUpperAZ b &&
    (match r.dropWhile (· = ' ') with | ',' :: _ => true | _ => false)
  | _ => false

/-- Modelled from the claim's words (C6): full and abbreviated month
names, lower-cased. -/
def claimMonthForms : List Str :=
  [ "january".data, "february".data, "march".data, "april".data,
    "may".data, "june".data, "july".data, "august".data,
    "september".data, "october".data, "november".data, "december".data,
    "jan".data, "feb".data, "mar".data, "apr".data, "jun".data,
    "jul".data, "aug".data, "sep".data, "sept".data, "oct".data,
    "nov".data, "dec".data ]

/-- Modelled from the claim's words (C6): remainders after one claimed
month form. -/
def claimMonthRems (s : Str) : List Str :=
  claimMonthForms.filterMap
    (fun f => if ciStarts f s then some (s.drop f.length) else none)

/-- Modelled from the claim's words (C6): remainders after
"Month YYYY". -/
def claimAfterMY (s : Str) : List Str :=
  (claimMonthRems s).filterMap (fun r => take4Digits (dropWs r))

/-- Modelled from the claim's words (C6): the dash may be a hyphen, an
en-dash, or an em-dash. -/
def claimDashes : Str := ['-', '–', '—']

/-- Modelled from the claim's words (C6): the line is exactly
"Month YYYY <dash> Month YYYY" with full or abbreviated month names,
case-insensitively, the dash drawn from `claimDashes`. -/
def claimDateRangeShape (s : Str) : Bool :=
  ((claimAfterMY s).flatMap
    (fun r =>
      match dropWs r with
      | c :: rest =>
        if c ∈ claimDashes then claimAfterMY (dropWs rest) else []
      | [] => [])).any (· = [])

/-- Modelled from the claim's words (C10): position of the first plain
case-insensitive occurrence of a guard keyword, with no word-boundary
requirement. -/
def specNaiveCutGo : Str → Option Nat
  | [] => none
  | s@(_ :: rest) =>
    if summKws.any (fun kw => kw.isPrefixOf (pyLower s)) then some 0
    else (specNaiveCutGo rest).map (· + 1)

/-- Modelled from the claim's words (C10): the joined summary text
truncated at the first plain occurrence of a guard keyword, trimmed. -/
def specNaiveSummary (lines : List Str) : Str :=
  let sec := slice_section lines "SUMMARY".data
  if sec = [] then []
  else
    let txt := collapse_ws (joinWith ' ' sec)
    pyStrip (txt.take ((specNaiveCutGo txt).getD txt.length))

theorem findIdxO_eq_none {α : Type} {p : α → Bool} {l : List α} :
    findIdxO p l = none ↔ ∀ a ∈ l, p a = false := by
  induction l with
  | nil => simp [findIdxO]
  | cons x r ih =>
    cases hx : p x with
    | true => simp [findIdxO, hx]
    | false =>
      rw [findIdxO, if_neg (by simp [hx]), Option.map_eq_none', ih]
      constructor
      · intro hr a ha
        rcases List.mem_cons.mp ha with rfl | ha
        · exact hx
        · exact hr a ha
      · intro hall a ha
        exact hall a (List.mem_cons_of_mem _ ha)

theorem findIdxO_some_spec {α : Type} {p : α → Bool} (d : α) :
    ∀ {l : List α} {i : Nat}, findIdxO p l = some i →
      i < l.length ∧ p (l.getD i d) = true ∧
        ∀ j, j < i → p (l.getD j d) = false := by
  intro l
  induction l with
  | nil => intro i h; simp [findIdxO] at h
  | cons x r ih =>
    intro i h
    by_cases hx : p x = true
    · rw [findIdxO, if_pos hx] at h
      cases h
      exact ⟨by simp, by simpa using hx,
        fun j hj => absurd hj (Nat.not_lt_zero j)⟩
    · rw [findIdxO, if_neg hx] at h
      rw [Option.map_eq_some'] at h
      obtain ⟨k, hk, rfl⟩ := h
      obtain ⟨h1, h2, h3⟩ := ih hk
      refine ⟨by simpa using h1, by simpa using h2, ?_⟩
      intro j hj
      cases j with
      | zero => simpa [Bool.not_eq_true] using hx
      | succ j => simpa using h3 j (by omega)

theorem findIdxO_eq_some_of {α : Type} {p : α → Bool} (d : α) :
    ∀ {l : List α} {i : Nat}, i < l.length → p (l.getD i d) = true →
      (∀ j, j < i → p (l.getD j d) = false) → findIdxO p l = some i := by
  intro l
  induction l with
  | nil => intro i hi; simp at hi
  | cons x r ih =>
    intro i hi hp hmin
    cases i with
    | zero =>
      simp only [List.getD_cons_zero] at hp
      rw [findIdxO, if_pos hp]
    | succ i =>
      have hx : p x = false := by simpa using hmin 0 (by omega)
      rw [findIdxO, if_neg (by simp [hx])]
      rw [ih (by simpa using hi) (by simpa using hp)
        (fun j hj => by simpa using hmin (j + 1) (by omega))]
      rfl

theorem take_findIdxO {α : Type} {p : α → Bool} {l : List α} :
    ∀ x ∈ l.take ((findIdxO p l).getD l.length), p x = false := by
  induction l with
  | nil => simp
  | cons y r ih =>
    by_cases hy : p y = true
    · simp [findIdxO, hy]
    · intro x hx
      rw [findIdxO, if_neg hy] at hx
      cases hfind : findIdxO p r with
      | none =>
        rw [hfind] at hx
        simp only [Option.map_none', Option.getD_none, List.length_cons,
          List.take_succ_cons, List.mem_cons] at hx
        rcases hx with rfl | hx
        · simpa [Bool.not_eq_true] using hy
        · exact ih x (by simpa [hfind] using hx)
      | some k =>
        rw [hfind] at hx
        simp only [Option.map_some', Option.getD_some,
          List.take_succ_cons, List.mem_cons] at hx
        rcases hx with rfl | hx
        · simpa [Bool.not_eq_true] using hy
        · exact ih x (by simpa [hfind] using hx)

theorem slice_congr (ls : List Str) {h1 h2 : Str}
    (h : norm_key h1 = norm_key h2) :
    slice_section ls h1 = slice_section ls h2 := by
  simp [slice_section, find_header_index, h]

/-- Claim C5: section slicing returns the half-open range strictly
between the matched header line and the next line matching any header
in the closed set (or end of input), never including the header line
itself; an absent header yields an empty range; and header matching
uppercases and strips all non-alphanumeric characters from both sides,
so "technical skills", "TECHNICAL-SKILLS" and "Technical Skills"
resolve to the same section. -/
theorem C5_slice_spec (lines : List Str) (header : Str) :
    ((∀ l ∈ lines, norm_key l ≠ norm_key header) →
      slice_section lines header = []) ∧
    (∀ i, i < lines.length →
      norm_key (lines.getD i []) = norm_key header →
      (∀ j, j < i → norm_key (lines.getD j []) ≠ norm_key header) →
      (∀ l ∈ slice_section lines header, is_any_header_line l = false) ∧
      slice_section lines header ++
        lines.drop (i + 1 + (slice_section lines header).length) =
        lines.drop (i + 1) ∧
      (i + 1 + (slice_section lines header).length < lines.length →
        is_any_header_line
          (lines.getD (i + 1 + (slice_section lines header).length) []) = true)) ∧
    (norm_key "technical skills".data = norm_key "TECHNICAL-SKILLS".data ∧
     norm_key "TECHNICAL-SKILLS".data = norm_key "Technical Skills".data ∧
     ∀ ls : List Str,
       slice_section ls "technical skills".data =
         slice_section ls "TECHNICAL-SKILLS".data ∧
       slice_section ls "TECHNICAL-SKILLS".data =
         slice_section ls "Technical Skills".data) := by
  refine ⟨?_, ?_, by decide, by decide,
    fun ls => ⟨slice_congr ls (by decide), slice_congr ls (by decide)⟩⟩
  · intro habs
    have h0 : find_header_index lines header = none := by
      rw [find_header_index, findIdxO_eq_none]
      intro a ha
      simpa using habs a ha
    simp [slice_section, h0]
  · intro i hi hmatch hmin
    have hfind : find_header_index lines header = some i := by
      apply findIdxO_eq_some_of []
      · exact hi
      · simpa using hmatch
      · intro j hj
        simpa using hmin j hj
    have hslice : slice_section lines header =
        (lines.drop (i + 1)).take
          ((findIdxO is_any_header_line (lines.drop (i + 1))).getD
            (lines.drop (i + 1)).length) := by
      unfold slice_section
      rw [hfind]
    set rest := lines.drop (i + 1) with hrest
    set n := ((findIdxO is_any_header_line rest).getD rest.length) with hn
    have hnlen : n ≤ rest.length := by
      cases hf : findIdxO is_any_header_line rest with
      | none => simp [hn, hf]
      | some k =>
        have h1 := (findIdxO_some_spec ([] : Str) hf).1
        rw [hn, hf]
        simp only [Option.getD_some]
        omega
    have hlen : (slice_section lines header).length = n := by
      rw [hslice, List.length_take]
      omega
    refine ⟨?_, ?_, ?_⟩
    · intro l hl
      rw [hslice] at hl
      exact take_findIdxO l hl
    · rw [hlen, hslice]
      have hdd : lines.drop (i + 1 + n) = rest.drop n := by
        rw [hrest, List.drop_drop]
      rw [hdd]
      exact List.take_append_drop n rest
    · intro hlt
      rw [hlen] at hlt ⊢
      have hgetD : lines.getD (i + 1 + n) [] = rest.getD n [] := by
        simp [hrest, List.getD_eq_getElem?_getD, List.getElem?_drop]
      rw [hgetD]
      cases hf : findIdxO is_any_header_line rest with
      | none =>
        exfalso
        have hne : n = rest.length := by simp [hn, hf]
        have hrl : rest.length = lines.length - (i + 1) := by
          rw [hrest, List.length_drop]
        omega
      | some k =>
        have hk : n = k := by simp [hn, hf]
        have h2 := (findIdxO_some_spec ([] : Str) hf).2.1
        rw [hk]
        exact h2

theorem C5_slice_spec_witness :
    (∀ l ∈ slice_section ["SUMMARY".data, "a".data, "EDUCATION".data]
        "SUMMARY".data, is_any_header_line l = false) ∧
    slice_section ["SUMMARY".data, "a".data, "EDUCATION".data] "SUMMARY".data ++
      (["SUMMARY".data, "a".data, "EDUCATION".data] : List Str).drop
        (0 + 1 + (slice_section ["SUMMARY".data, "a".data, "EDUCATION".data]
          "SUMMARY".data).length) =
      (["SUMMARY".data, "a".data, "EDUCATION".data] : List Str).drop (0 + 1) ∧
    (0 + 1 + (slice_section ["SUMMARY".data, "a".data, "EDUCATION".data]
        "SUMMARY".data).length <
        (["SUMMARY".data, "a".data, "EDUCATION".data] : List Str).length →
      is_any_header_line
        ((["SUMMARY".data, "a".data, "EDUCATION".data] : List Str).getD
          (0 + 1 + (slice_section ["SUMMARY".data, "a".data, "EDUCATION".data]
            "SUMMARY".data).length) []) = true) :=
  (C5_slice_spec ["SUMMARY".data, "a".data, "EDUCATION".data] "SUMMARY".data).2.1
    0 (by decide) (by decide) (fun j hj => absurd hj (Nat.not_lt_zero j))

theorem uniquePreserveGo_pairwise (l : List Str) : ∀ seen : List Str,
    (uniquePreserveGo seen l).Pairwise (fun a b => pyLower a ≠ pyLower b) ∧
    (∀ x ∈ uniquePreserveGo seen l, pyLower x ∉ seen) := by
  induction l with
  | nil => simp [uniquePreserveGo]
  | cons x xs ih =>
    intro seen
    by_cases ht : pyStrip x = []
    · simpa [uniquePreserveGo, ht] using ih seen
    · by_cases hm : pyLower (pyStrip x) ∈ seen
      · simpa [uniquePreserveGo, ht, hm] using ih seen
      · have hrec := ih (pyLower (pyStrip x) :: seen)
        rw [show uniquePreserveGo seen (x :: xs) =
            pyStrip x :: uniquePreserveGo (pyLower (pyStrip x) :: seen) xs
          from by simp [uniquePreserveGo, ht, hm]]
        constructor
        · refine List.Pairwise.cons ?_ hrec.1
          intro y hy
          have := hrec.2 y hy
          simp only [List.mem_cons] at this
          tauto
        · intro y hy
          rcases List.mem_cons.mp hy with rfl | hy
          · exact hm
          · have := hrec.2 y hy
            simp only [List.mem_cons] at this
            tauto

theorem uniquePreserveGo_sublist (l : List Str) : ∀ seen : List Str,
    (uniquePreserveGo seen l).Sublist (l.map pyStrip) := by
  induction l with
  | nil => simp [uniquePreserveGo]
  | cons x xs ih =>
    intro seen
    by_cases ht : pyStrip x = []
    · rw [uniquePreserveGo, if_pos ht]
      exact (ih seen).cons _
    · by_cases hm : pyLower (pyStrip x) ∈ seen
      · rw [uniquePreserveGo, if_neg ht, if_pos hm]
        exact (ih seen).cons _
      · rw [uniquePreserveGo, if_neg ht, if_neg hm]
        exact (ih _).cons₂ _

theorem uniquePreserveGo_covers (l : List Str) : ∀ (seen : List Str) (x : Str),
    x ∈ l → pyStrip x ≠ [] →
    pyLower (pyStrip x) ∈ seen ∨
      pyLower (pyStrip x) ∈ (uniquePreserveGo seen l).map pyLower := by
  induction l with
  | nil => simp
  | cons y ys ih =>
    intro seen x hx hne
    rcases List.mem_cons.mp hx with rfl | hx
    · by_cases hm : pyLower (pyStrip x) ∈ seen
      · exact Or.inl hm
      · rw [uniquePreserveGo, if_neg hne, if_neg hm]
        right
        simp
    · by_cases ht : pyStrip y = []
      · rw [uniquePreserveGo, if_pos ht]
        exact ih seen x hx hne
      · by_cases hm : pyLower (pyStrip y) ∈ seen
        · rw [uniquePreserveGo, if_neg ht, if_pos hm]
          exact ih seen x hx hne
        · rw [uniquePreserveGo, if_neg ht, if_neg hm]
          rcases ih (pyLower (pyStrip y) :: seen) x hx hne with h | h
          · rcases List.mem_cons.mp h with heq | h
            · right
              simp [heq]
            · exact Or.inl h
          · right
            simp only [List.map_cons, List.mem_cons]
            exact Or.inr h

/-- Claim C8: for every Skills section, each of the five category
labels is matched at most once (the first matching position only, via
`grab`) and its value split on commas/semicolons into trimmed tokens;
the output "tools" list is the concatenation of the Databases, Cloud
and Tools/Testing token lists in that fixed order, de-duplicated
case-insensitively while preserving first-seen casing and first-seen
order; and a category with no matching label yields an empty list. -/
theorem C8_skills_spec (lines : List Str) :
    parse_skills lines =
      { languages :=
          unique_preserve (grab langAlts (joinWith '\n' (skillsSec lines))),
        frameworks :=
          unique_preserve (grab fwAlts (joinWith '\n' (skillsSec lines))),
        tools := unique_preserve
          (grab dbAlts (joinWith '\n' (skillsSec lines)) ++
           grab cloudAlts (joinWith '\n' (skillsSec lines)) ++
           grab toolsAlts (joinWith '\n' (skillsSec lines))) } ∧
    (∀ l : List Str,
      (unique_preserve l).Pairwise (fun a b => pyLower a ≠ pyLower b)) ∧
    (∀ l : List Str, (unique_preserve l).Sublist (l.map pyStrip)) ∧
    (∀ (l : List Str) (x : Str), x ∈ l → pyStrip x ≠ [] →
      pyLower (pyStrip x) ∈ (unique_preserve l).map pyLower) ∧
    (∀ alts : List (List LPiece),
      grabScan alts (joinWith '\n' (skillsSec lines)) = none →
      grab alts (joinWith '\n' (skillsSec lines)) = []) := by
  refine ⟨?_, fun l => (uniquePreserveGo_pairwise l []).1,
    fun l => uniquePreserveGo_sublist l [],
    fun l x hx hne => ?_, fun alts h => by simp [grab, h]⟩
  · by_cases hsec : skillsSec lines = []
    · rw [parse_skills, hsec]
      decide
    · rw [parse_skills]
      rw [if_neg hsec]
  · rcases uniquePreserveGo_covers l [] x hx hne with h | h
    · simp at h
    · exact h

theorem C8_skills_spec_witness :
    parse_skills ["TECHNICAL SKILLS".data,
        "Languages: Python, Go".data,
        "Databases & Caching: Redis, MySQL".data,
        "Cloud & DevOps: AWS, redis".data,
        "Tools & Testing: pytest; MySQL".data] =
      { languages := ["Python".data, "Go".data],
        frameworks := [],
        tools := ["Redis".data, "MySQL".data, "AWS".data, "pytest".data] } ∧
    pyLower (pyStrip " python ".data) ∈
      (unique_preserve ["Python".data, " python ".data]).map pyLower := by
  have h := C8_skills_spec ["TECHNICAL SKILLS".data,
    "Languages: Python, Go".data,
    "Databases & Caching: Redis, MySQL".data,
    "Cloud & DevOps: AWS, redis".data,
    "Tools & Testing: pytest; MySQL".data]
  exact ⟨h.1.trans (by decide),
    h.2.2.2.1 ["Python".data, " python ".data] " python ".data
      (by decide) (by decide)⟩

def ProjOK (p : ProjEntry) : Prop :=
  (p.title ≠ [] ∨ p.time ≠ [] ∨ p.bullets ≠ []) ∧ ∀ b ∈ p.bullets, b ≠ []

theorem pushProj_inv {st : PState} (h : ∀ q ∈ st.projects, ProjOK q) :
    ∀ q ∈ (pushProj st).projects, ProjOK q := by
  unfold pushProj
  cases hc : st.cur with
  | none => exact h
  | some c =>
    simp only
    split_ifs with hkeep
    · intro q hq
      rcases List.mem_append.mp hq with hq | hq
      · exact h q hq
      · simp only [List.mem_singleton] at hq
        subst hq
        constructor
        · have hk := hkeep
          simp only [Bool.or_eq_true, decide_eq_true_eq] at hk
          simp only [ne_eq]
          tauto
        · intro b hb
          simp only [List.mem_filter] at hb
          simpa using hb.2
    · exact h

theorem projStep_projects (st : PState) (ln : Str) :
    (projStep st ln).projects = st.projects ∨
    (projStep st ln).projects = (pushProj st).projects := by
  unfold projStep
  rcases hE : extract_time_and_title (pyStrip ln) with _ | ⟨t, ti⟩ <;>
    simp only [hE]
  · split_ifs <;>
      first
        | exact Or.inl rfl
        | exact Or.inr rfl
        | exact Or.inl trivial
        | exact Or.inr trivial
        | (rcases hB : bulletMatch (pyStrip ln) with _ | g <;>
           rcases hC : st.cur with _ | c <;>
           simp only [hB, hC] <;> (try split_ifs) <;> simp)
  · first
      | exact Or.inr rfl
      | exact Or.inr trivial

theorem foldl_projStep_inv (sec : List Str) : ∀ st : PState,
    (∀ q ∈ st.projects, ProjOK q) →
    ∀ q ∈ (sec.foldl projStep st).projects, ProjOK q := by
  induction sec with
  | nil => intro st h; exact h
  | cons ln rest ih =>
    intro st h
    rw [List.foldl_cons]
    apply ih
    rcases projStep_projects st ln with he | he
    · rw [he]; exact h
    · rw [he]; exact pushProj_inv h

/-- Claim C9: every project entry in the parser's output has at least
one of title, time or bullets non-empty, and every emitted bullet
string is non-empty after whitespace normalisation. -/
theorem C9_invariant (lines : List Str) (p : ProjEntry)
    (hp : p ∈ parse_projects lines) :
    (p.title ≠ [] ∨ p.time ≠ [] ∨ p.bullets ≠ []) ∧ ∀ b ∈ p.bullets, b ≠ [] := by
  have hinv : ∀ q ∈ (pushProj ((slice_section lines "PROJECTS".data).foldl
      projStep ⟨[], none, none⟩)).projects, ProjOK q :=
    pushProj_inv (foldl_projStep_inv _ _ (by simp))
  exact hinv p hp

theorem C9_invariant_witness :
    ((⟨"Food App".data, "July 2024-Aug 2024".data, []⟩ : ProjEntry) ∈
      parse_projects ["PROJECTS".data, "Food App July 2024-Aug 2024".data]) ∧
    ((("Food App".data : Str) ≠ [] ∨ ("July 2024-Aug 2024".data : Str) ≠ [] ∨
        ([] : List Str) ≠ []) ∧
      ∀ b ∈ ([] : List Str), b ≠ []) :=
  ⟨by decide,
   C9_invariant ["PROJECTS".data, "Food App July 2024-Aug 2024".data]
     ⟨"Food App".data, "July 2024-Aug 2024".data, []⟩ (by decide)⟩

/-- Modelled from the claim's words (C2, amended): plain pairing of
consecutive lines into (school, degree) entries. -/
def specPairs : List Str → List EduEntry
  | [] => []
  | [a] => [⟨pyStrip a, []⟩]
  | a :: b :: r => ⟨pyStrip a, pyStrip b⟩ :: specPairs r

theorem punct_ne_brackets {s : Str} (hp : punctOnly s = false) :
    s ≠ ")".data ∧ s ≠ "(".data :=
  ⟨fun he => absurd hp (by rw [he]; decide),
   fun he => absurd hp (by rw [he]; decide)⟩

theorem eduPair_eq_specPairs : ∀ L : List Str,
    (∀ x ∈ L, pyStrip x ≠ [] ∧ punctOnly (pyStrip x) = false) →
    eduPair L = specPairs L := by
  intro L
  induction L using specPairs.induct with
  | case1 => intro _; rfl
  | case2 a =>
    intro h
    obtain ⟨hne, hp⟩ := h a (by simp)
    obtain ⟨hc1, hc2⟩ := punct_ne_brackets hp
    simp [eduPair, specPairs, hne, hp, hc1, hc2]
  | case3 a b r ih =>
    intro h
    obtain ⟨hne, hp⟩ := h a (by simp)
    obtain ⟨hc1, hc2⟩ := punct_ne_brackets hp
    have hr := ih (fun x hx => h x (by simp [hx]))
    simp [eduPair, specPairs, hne, hp, hc1, hc2, hr]

/-- Claim C2 (amended): after merging location-looking lines into their
predecessor, education entries are formed by pairing consecutive lines
off as (school, degree); no institution-keyword or degree-keyword
classification is involved. -/
theorem C2_amended (lines : List Str)
    (h : ∀ x ∈ eduMerge (slice_section lines "EDUCATION".data),
      pyStrip x ≠ [] ∧ punctOnly (pyStrip x) = false) :
    parse_education lines =
      specPairs (eduMerge (slice_section lines "EDUCATION".data)) := by
  rw [parse_education]
  exact eduPair_eq_specPairs _ h

theorem C2_amended_witness :
    (∀ x ∈ eduMerge (slice_section
        ["EDUCATION".data, "A University".data, "BS 2020".data]
        "EDUCATION".data),
      pyStrip x ≠ [] ∧ punctOnly (pyStrip x) = false) ∧
    parse_education ["EDUCATION".data, "A University".data, "BS 2020".data] =
      specPairs (eduMerge (slice_section
        ["EDUCATION".data, "A University".data, "BS 2020".data]
        "EDUCATION".data)) :=
  ⟨by decide, C2_amended _ (by decide)⟩

/-- Claim C7 (amended): the core never fails; for every input it
returns a record whose name is non-empty (falling back to a fixed
literal) and whose contact github is non-empty (falling back to the
default github URL). -/
theorem C7_amended (now raw : Str) :
    (build_structured now raw).name ≠ [] ∧
    (build_structured now raw).contact.github ≠ [] := by
  constructor
  · have hn : (build_structured now raw).name =
        if parse_name (preprocess_lines (lines_nonempty raw)) = []
        then "Zhengshu Zhang".data
        else parse_name (preprocess_lines (lines_nonempty raw)) := rfl
    rw [hn]
    split_ifs with h
    · decide
    · exact h
  · show (parse_contact_line (preprocess_lines (lines_nonempty raw))).github ≠ []
    rcases hl : preprocess_lines (lines_nonempty raw) with _ | ⟨x, rest⟩
    · simp [parse_contact_line]
      decide
    · rcases rest with _ | ⟨y, rest2⟩
      · simp [parse_contact_line]
        decide
      · simp only [parse_contact_line]
        split_ifs with h
        · decide
        · exact h

/-- The joined, whitespace-collapsed SUMMARY section text used by
`parse_summary`. -/
def summText (lines : List Str) : Str :=
  collapse_ws (joinWith ' ' (slice_section lines "SUMMARY".data))

/-- The character preceding offset `m` of the scanned suffix (`prev`
when `m = 0`). -/
def prevCharAt (prev : Option Char) (s : Str) (m : Nat) : Option Char :=
  if m = 0 then prev else some (s.getD (m - 1) ' ')

theorem summBounded_nil (prev : Option Char) :
    summBounded prev [] = false := by
  have h2 : summKws.any (fun kw => summKwAt kw ([] : Str)) = false := by decide
  cases prev <;> simp [summBounded, h2]

theorem summScanGo_spec : ∀ (s : Str) (prev : Option Char),
    (∀ n, summScanGo prev s = some n →
      summBounded (prevCharAt prev s n) (s.drop n) = true ∧
      ∀ m, m < n → summBounded (prevCharAt prev s m) (s.drop m) = false) ∧
    (summScanGo prev s = none →
      ∀ m, summBounded (prevCharAt prev s m) (s.drop m) = false) := by
  intro s
  induction s with
  | nil =>
    intro prev
    constructor
    · intro n hn
      simp [summScanGo] at hn
    · intro _ m
      simp only [List.drop_nil]
      exact summBounded_nil _
  | cons c rest ih =>
    intro prev
    by_cases hb : summBounded prev (c :: rest) = true
    · constructor
      · intro n hn
        rw [summScanGo, if_pos hb] at hn
        cases hn
        exact ⟨by simpa [prevCharAt] using hb,
          fun m hm => absurd hm (Nat.not_lt_zero m)⟩
      · intro hn
        rw [summScanGo, if_pos hb] at hn
        cases hn
    · have htr : ∀ k, prevCharAt prev (c :: rest) (k + 1) =
          prevCharAt (some c) rest k := by
        intro k
        cases k with
        | zero => simp [prevCharAt]
        | succ k => simp [prevCharAt]
      constructor
      · intro n hn
        rw [summScanGo, if_neg hb, Option.map_eq_some'] at hn
        obtain ⟨k, hk, rfl⟩ := hn
        obtain ⟨h1, h2⟩ := ((ih (some c)).1 k hk)
        refine ⟨by simpa [htr k] using h1, ?_⟩
        intro m hm
        cases m with
        | zero =>
          simpa [prevCharAt, Bool.not_eq_true] using hb
        | succ m =>
          rw [htr m]
          exact h2 m (by omega)
      · intro hn m
        rw [summScanGo, if_neg hb, Option.map_eq_none'] at hn
        cases m with
        | zero => simpa [prevCharAt, Bool.not_eq_true] using hb
        | succ m =>
          rw [htr m]
          exact (ih (some c)).2 hn m

/-- Claim C10 (amended): for every input, the summary parser returns
the joined SUMMARY text truncated at the first case-insensitive
word-bounded occurrence of a guard keyword ("University of",
"EDUCATION", "PROJECTS", "TECHNICAL SKILLS", "SKILLS"), trimmed; the
scanner's position is exactly the least word-bounded occurrence. -/
theorem C10_amended (lines : List Str) :
    parse_summary lines =
      pyStrip ((summText lines).take
        ((summScanGo none (summText lines)).getD (summText lines).length)) ∧
    (∀ n, summScanGo none (summText lines) = some n →
      summBounded (prevCharAt none (summText lines) n)
          ((summText lines).drop n) = true ∧
      ∀ m, m < n → summBounded (prevCharAt none (summText lines) m)
        ((summText lines).drop m) = false) ∧
    (summScanGo none (summText lines) = none →
      ∀ m, summBounded (prevCharAt none (summText lines) m)
        ((summText lines).drop m) = false) := by
  refine ⟨?_, (summScanGo_spec (summText lines) none).1,
    (summScanGo_spec (summText lines) none).2⟩
  by_cases hsec : slice_section lines "SUMMARY".data = []
  · rw [parse_summary, if_pos hsec, summText, hsec]
    decide
  · rw [parse_summary, if_neg hsec, summText]

theorem C10_amended_witness :
    parse_summary ["SUMMARY".data, "before University of X".data] =
      "before".data ∧
    summBounded
      (prevCharAt none (summText ["SUMMARY".data, "before University of X".data]) 7)
      ((summText ["SUMMARY".data, "before University of X".data]).drop 7) = true :=
  ⟨((C10_amended ["SUMMARY".data, "before University of X".data]).1).trans
      (by decide),
   (((C10_amended ["SUMMARY".data, "before University of X".data]).2.1) 7
      (by decide)).1⟩

theorem strip_no_nl {l : Str} (h : '\n' ∉ l) : '\n' ∉ pyStrip l := by
  intro hm
  apply h
  rw [pyStrip] at hm
  rw [List.mem_reverse] at hm
  have hm2 := (List.dropWhile_sublist _).subset hm
  rw [List.mem_reverse] at hm2
  exact (List.dropWhile_sublist _).subset hm2

theorem splitNl_no {s : Str} (h : '\n' ∉ s) : splitOnChar '\n' s = [s] := by
  induction s with
  | nil => rfl
  | cons x r ih =>
    have hx : x ≠ '\n' := fun he => h (he ▸ List.mem_cons_self x r)
    have hr : splitOnChar '\n' r = [r] :=
      ih (fun hm => h (List.mem_cons_of_mem _ hm))
    rw [splitOnChar, if_neg hx, hr]

theorem take4Digits_some {t u : Str} (h : take4Digits t = some u) :
    fourDigitsAt t = true ∧ u = t.drop 4 := by
  rw [take4Digits] at h
  split_ifs at h with hc
  cases h
  exact ⟨hc, rfl⟩

theorem monthRems_suffix {s m : Str} (h : m ∈ monthRems s) : m <:+ s := by
  rw [monthRems, List.mem_filterMap] at h
  obtain ⟨f, _, hf⟩ := h
  split_ifs at hf with hci
  cases hf
  exact List.drop_suffix _ _

theorem afterMonthYear_suffix {s r : Str} (h : r ∈ afterMonthYear s) :
    (∃ t, t <:+ s ∧ fourDigitsAt t = true ∧ r = t.drop 4) := by
  rw [afterMonthYear, List.mem_filterMap] at h
  obtain ⟨m, hm, ht4⟩ := h
  obtain ⟨h4, hr⟩ := take4Digits_some ht4
  exact ⟨dropWs m, (List.dropWhile_suffix _).trans (monthRems_suffix hm),
    h4, hr⟩

theorem dateRangeFull_mY {s : Str} (h : dateRangeFull s = true) :
    monthYearStarts s = true := by
  rw [dateRangeFull, List.any_eq_true] at h
  obtain ⟨r, hr, _⟩ := h
  rw [drRems, List.mem_flatMap] at hr
  obtain ⟨r0, hr0, _⟩ := hr
  simp only [monthYearStarts, ne_eq, decide_eq_true_eq]
  exact List.ne_nil_of_mem hr0

theorem dateRangeFull_loose {s : Str} (h : dateRangeFull s = true) :
    looseSeg s = true := by
  rw [dateRangeFull, List.any_eq_true] at h
  obtain ⟨r, hr, _⟩ := h
  rw [drRems, List.mem_flatMap] at hr
  obtain ⟨r0, hr0, hin⟩ := hr
  obtain ⟨t, hts, h4, hr0eq⟩ := afterMonthYear_suffix hr0
  cases hd : dropWs r0 with
  | nil => rw [hd] at hin; simp at hin
  | cons c rest =>
    rw [hd] at hin
    have hin2 : r ∈ (if c ∈ dashChars then afterMonthYear (dropWs rest)
        else []) := hin
    by_cases hc : c ∈ dashChars
    · rw [if_pos hc] at hin2
      obtain ⟨v0, hvs, hv4, _⟩ := afterMonthYear_suffix hin2
      rw [looseSeg, List.any_eq_true]
      refine ⟨t, (List.mem_tails _ _).mpr hts, ?_⟩
      rw [Bool.and_eq_true]
      refine ⟨h4, ?_⟩
      rw [List.any_eq_true]
      have hu : (c :: rest) <:+ t.drop 4 := by
        rw [← hr0eq, ← hd]
        exact List.dropWhile_suffix _
      refine ⟨c :: rest, (List.mem_tails _ _).mpr hu, ?_⟩
      simp only
      rw [Bool.and_eq_true]
      refine ⟨by simpa using hc, ?_⟩
      rw [List.any_eq_true]
      have hvrest : v0 <:+ rest :=
        hvs.trans (List.dropWhile_suffix _)
      exact ⟨v0, (List.mem_tails _ _).mpr hvrest, hv4⟩
    · rw [if_neg hc] at hin2
      simp at hin2

/-- Claim C6 (amended): a line is accepted as a bare date range by the
project parser exactly when, after trimming, it starts with
"Month YYYY" (month names or abbreviations, case-insensitively) and
contains a 4-digit year, then a hyphen or en-dash, then another
4-digit year later in the line; the em-dash is not an accepted dash. -/
theorem C6_amended (l : Str) (h : '\n' ∉ l) :
    is_time_only_line l = true ↔
    (monthYearStarts (pyStrip l) = true ∧ looseSearch (pyStrip l) = true) := by
  have hnl : '\n' ∉ pyStrip l := strip_no_nl h
  have hsplit : splitOnChar '\n' (pyStrip l) = [pyStrip l] := splitNl_no hnl
  have hloose : looseSearch (pyStrip l) = looseSeg (pyStrip l) := by
    rw [looseSearch, hsplit]
    simp
  constructor
  · intro hT
    rw [is_time_only_line, Bool.or_eq_true, Bool.and_eq_true] at hT
    rcases hT with h1 | h1
    · exact ⟨dateRangeFull_mY h1, by rw [hloose]; exact dateRangeFull_loose h1⟩
    · exact h1
  · intro hmy
    rw [is_time_only_line, Bool.or_eq_true, Bool.and_eq_true]
    exact Or.inr ⟨hmy.1, hmy.2⟩

theorem C6_amended_witness :
    ('\n' ∉ "May 2025-2026".data) ∧
    (is_time_only_line "May 2025-2026".data = true ↔
      (monthYearStarts (pyStrip "May 2025-2026".data) = true ∧
       looseSearch (pyStrip "May 2025-2026".data) = true)) :=
  ⟨by decide, C6_amended "May 2025-2026".data (by decide)⟩

/-- Claim C1 counterexample: on the claimed input, the linkedin field
is not "linkedin.com/in/jane" — `URL_RE` requires an `http(s)://`
scheme, so the bare URL is never classified. -/
theorem C1_counterexample :
    (parse_contact_line
      [ "Jane Doe".data,
        "555-123-4567 | jane@x.com | linkedin.com/in/jane | Los Angeles, CA".data
      ]).linkedin ≠ "linkedin.com/in/jane".data := by decide

/-- Claim C1 (amended): on the input line sequence of the claim, the
contact parser returns phone "555-123-4567", email "jane@x.com",
linkedin empty (the scheme-less URL is not matched by `URL_RE`), the
fixed default github URL, and location "Los Angeles, CA". -/
theorem C1_contact_value :
    parse_contact_line
      [ "Jane Doe".data,
        "555-123-4567 | jane@x.com | linkedin.com/in/jane | Los Angeles, CA".data ] =
    { phone := "555-123-4567".data, email := "jane@x.com".data,
      linkedin := [], github := DEFAULT_GITHUB,
      location := "Los Angeles, CA".data } := by decide

/-- Claim C2 counterexample: an Education section line with no
institution keyword and no trailing region code still starts a new
entry and becomes its school field. -/
theorem C2_counterexample :
    parse_education
        ["EDUCATION".data, "Random Text A".data, "Random Text B".data] =
      [⟨"Random Text A".data, "Random Text B".data⟩] ∧
    specInstCue "Random Text A".data = false ∧
    specEndsRegion "Random Text A".data = false := by decide

/-- Claim C3 counterexample: an entry that ends scanning with an empty
title and an "App"-bearing first bullet is not rewritten into the form
the claim predicts (title promoted, bullet dropped). -/
theorem C3_counterexample :
    parse_projects
        ["PROJECTS".data, "July 2024-Aug 2024".data, "■ Food App".data] ≠
      [⟨"Food App".data, "July 2024-Aug 2024".data, []⟩] := by decide

/-- Claim C3 (amended): the project parser has no title-promotion
post-pass — the entry is emitted with its empty title and the
"App"-bearing first bullet kept in the bullet list. -/
theorem C3_actual_output :
    parse_projects
        ["PROJECTS".data, "July 2024-Aug 2024".data, "■ Food App".data] =
      [⟨[], "July 2024-Aug 2024".data, ["Food App".data]⟩] ∧
    containsSub "App".data "Food App".data = true := by decide

/-- Claim C4 counterexample: a second normalisation pass splits
further — the remainder after the first header split still contains a
header keyword and is only split on the next pass. -/
theorem C4_counterexample :
    preprocess_lines (preprocess_lines ["SUMMARY EDUCATION x".data]) ≠
      preprocess_lines ["SUMMARY EDUCATION x".data] := by decide

/-- Claim C6 counterexample: "May 2025-2026" is accepted as a date
range though it does not match the claimed "Month YYYY dash Month
YYYY" shape, and the em-dash form "May 2024—June 2024" matches the
claimed shape but is rejected. -/
theorem C6_counterexample :
    is_time_only_line "May 2025-2026".data = true ∧
    claimDateRangeShape "May 2025-2026".data = false ∧
    claimDateRangeShape "May 2024—June 2024".data = true ∧
    is_time_only_line "May 2024—June 2024".data = false := by decide

/-- Claim C7 counterexample: with no input lines at all, the core does
not surface an error — it returns a complete record built from the
fallback name and empty/default fields. -/
theorem C7_counterexample :
    build_structured [] [] =
    { generated_at := [], source := "resume.pdf".data,
      name := "Zhengshu Zhang".data, subtitle := DEFAULT_SUBTITLE,
      summary := [], resumeUrl := "./resume.pdf".data,
      contact := { phone := [], email := [], linkedin := [],
                   github := DEFAULT_GITHUB, location := [] },
      education := [], projects := [], skills := ⟨[], [], []⟩ } := by decide

/-- Claim C10 counterexample: the truncation requires word-bounded
occurrences — "xEDUCATIONy" contains "EDUCATION" but is returned
whole, while the claim's plain-occurrence reading would truncate it
to "x". -/
theorem C10_counterexample :
    parse_summary ["SUMMARY".data, "xEDUCATIONy".data] = "xEDUCATIONy".data ∧
    specNaiveSummary ["SUMMARY".data, "xEDUCATIONy".data] = "x".data := by
  decide

/-- No two adjacent whitespace characters. -/
def noTwoWs : Str → Bool
  | [] => true
  | [_] => true
  | a :: b :: r => !(pyIsWs a && pyIsWs b) && noTwoWs (b :: r)

/-- Every whitespace character is a plain space. -/
def wsSpace (s : Str) : Bool := s.all (fun c => !pyIsWs c || c = ' ')

/-- The first character (if any) is not whitespace. -/
def headNotWs : Str → Bool
  | [] => true
  | c :: _ => !pyIsWs c

/-- A line is clean when it has no whitespace at either end, no two
adjacent whitespace characters, and only plain spaces as whitespace —
exactly the lines fixed by `collapse_ws`. -/
def cleanB (s : Str) : Bool :=
  headNotWs s && headNotWs s.reverse && noTwoWs s && wsSpace s

theorem cr_space {s : Str} : wsSpace (collapseRuns s) = true := by
  induction s with
  | nil => rfl
  | cons a r ih =>
    cases r with
    | nil =>
      by_cases ha : pyIsWs a = true
      · rw [collapseRuns, if_pos ha]
        decide
      · rw [collapseRuns, if_neg ha]
        rw [wsSpace, List.all_cons, List.all_nil, Bool.and_true,
          Bool.or_eq_true, Bool.not_eq_true']
        exact Or.inl (by simpa using ha)
    | cons b r2 =>
      by_cases hab : (pyIsWs a && pyIsWs b) = true
      · rw [collapseRuns, if_pos hab]
        exact ih
      · rw [collapseRuns, if_neg hab]
        rw [wsSpace, List.all_cons, Bool.and_eq_true]
        refine ⟨?_, ih⟩
        by_cases ha : pyIsWs a = true
        · rw [if_pos ha]
          decide
        · rw [if_neg ha]
          rw [Bool.or_eq_true, Bool.not_eq_true']
          exact Or.inl (by simpa using ha)

theorem cr_head_status (a : Char) (r : Str) :
    ∃ c t, collapseRuns (a :: r) = c :: t ∧ pyIsWs c = pyIsWs a := by
  induction r generalizing a with
  | nil =>
    by_cases ha : pyIsWs a = true
    · exact ⟨' ', [], by rw [collapseRuns, if_pos ha], by rw [ha]; decide⟩
    · exact ⟨a, [], by rw [collapseRuns, if_neg ha], rfl⟩
  | cons b r ih =>
    by_cases hab : (pyIsWs a && pyIsWs b) = true
    · obtain ⟨c, t, hct, hws⟩ := ih b
      rw [Bool.and_eq_true] at hab
      refine ⟨c, t, ?_, ?_⟩
      · rw [collapseRuns, if_pos (by rw [hab.1, hab.2]; rfl)]
        exact hct
      · rw [hws, hab.2, hab.1]
    · by_cases ha : pyIsWs a = true
      · exact ⟨' ', collapseRuns (b :: r),
          by rw [collapseRuns, if_neg hab, if_pos ha], by rw [ha]; decide⟩
      · exact ⟨a, collapseRuns (b :: r),
          by rw [collapseRuns, if_neg hab, if_neg ha], rfl⟩

theorem cr_noTwo {s : Str} : noTwoWs (collapseRuns s) = true := by
  induction s with
  | nil => rfl
  | cons a r ih =>
    cases r with
    | nil =>
      by_cases ha : pyIsWs a = true
      · rw [collapseRuns, if_pos ha]; rfl
      · rw [collapseRuns, if_neg ha]; rfl
    | cons b r2 =>
      by_cases hab : (pyIsWs a && pyIsWs b) = true
      · rw [collapseRuns, if_pos hab]
        exact ih
      · rw [collapseRuns, if_neg hab]
        obtain ⟨c, t, hct, hws⟩ := cr_head_status b r2
        rw [hct]
        rw [hct] at ih
        rw [noTwoWs, Bool.and_eq_true]
        refine ⟨?_, ih⟩
        by_cases ha : pyIsWs a = true
        · have hb : pyIsWs b = false := by
            cases hbb : pyIsWs b
            · rfl
            · exfalso; exact hab (by rw [ha, hbb]; rfl)
          rw [if_pos ha, hws, hb]
          decide
        · rw [if_neg ha]
          rw [Bool.not_eq_true] at ha
          rw [ha]
          rfl

theorem cr_fix {s : Str} (h1 : noTwoWs s = true) (h2 : wsSpace s = true) :
    collapseRuns s = s := by
  induction s with
  | nil => rfl
  | cons a r ih =>
    have hsp : (!pyIsWs a || a = ' ') = true := by
      rw [wsSpace, List.all_cons, Bool.and_eq_true] at h2
      exact h2.1
    have haeq : pyIsWs a = true → a = ' ' := by
      intro ha
      rcases Bool.or_eq_true _ _ ▸ hsp with h | h
      · rw [Bool.not_eq_true'] at h; rw [ha] at h; cases h
      · simpa using h
    cases r with
    | nil =>
      by_cases ha : pyIsWs a = true
      · rw [collapseRuns, if_pos ha, haeq ha]
      · rw [collapseRuns, if_neg ha]
    | cons b r2 =>
      have hnt : noTwoWs (b :: r2) = true := by
        rw [noTwoWs, Bool.and_eq_true] at h1
        exact h1.2
      have hab : (pyIsWs a && pyIsWs b) ≠ true := by
        rw [noTwoWs, Bool.and_eq_true] at h1
        intro hcon
        rw [hcon] at h1
        simpa using h1.1
      have hws2 : wsSpace (b :: r2) = true := by
        rw [wsSpace, List.all_cons, Bool.and_eq_true] at h2
        exact h2.2
      rw [collapseRuns, if_neg hab, ih hnt hws2]
      by_cases ha : pyIsWs a = true
      · rw [if_pos ha, haeq ha]
      · rw [if_neg ha]

theorem getLast?_of_suffix {v w : Str} (h : v <:+ w) (hv : v ≠ []) :
    v.getLast? = w.getLast? := by
  obtain ⟨pre, rfl⟩ := h
  rw [List.getLast?_append]
  cases hg : v.getLast? with
  | none => exact absurd (List.getLast?_eq_none_iff.mp hg) hv
  | some a => rfl

theorem dw_head : ∀ {s : Str} {c : Char} {t : Str},
    s.dropWhile pyIsWs = c :: t → pyIsWs c = false := by
  intro s
  induction s with
  | nil => intro c t h; cases h
  | cons a r ih =>
    intro c t h
    by_cases ha : pyIsWs a = true
    · rw [List.dropWhile_cons_of_pos ha] at h
      exact ih h
    · rw [List.dropWhile_cons_of_neg ha] at h
      cases h
      exact Bool.not_eq_true _ ▸ ha

theorem dropWhile_headNotWs (s : Str) :
    headNotWs (s.dropWhile pyIsWs) = true := by
  cases h : s.dropWhile pyIsWs with
  | nil => rfl
  | cons c t =>
    rw [headNotWs, dw_head h]
    rfl

theorem strip_headNotWs (s : Str) : headNotWs (pyStrip s) = true := by
  rw [pyStrip]
  cases hv : ((s.dropWhile pyIsWs).reverse.dropWhile pyIsWs).reverse with
  | nil => rfl
  | cons c t =>
    have hvne : (s.dropWhile pyIsWs).reverse.dropWhile pyIsWs ≠ [] := by
      intro h0
      rw [h0] at hv
      cases hv
    have hsuf : (s.dropWhile pyIsWs).reverse.dropWhile pyIsWs <:+
        (s.dropWhile pyIsWs).reverse := List.dropWhile_suffix _
    have hlast := getLast?_of_suffix hsuf hvne
    rw [List.getLast?_reverse] at hlast
    have hhead : ((s.dropWhile pyIsWs).reverse.dropWhile pyIsWs).reverse.head? =
        (s.dropWhile pyIsWs).head? := by
      rw [List.head?_reverse]
      exact hlast
    rw [hv] at hhead
    cases hu : s.dropWhile pyIsWs with
    | nil =>
      rw [hu] at hhead
      cases hhead
    | cons c0 t0 =>
      rw [hu] at hhead
      simp only [List.head?_cons] at hhead
      cases hhead
      rw [headNotWs, dw_head hu]
      rfl

theorem strip_revHeadNotWs (s : Str) :
    headNotWs (pyStrip s).reverse = true := by
  rw [pyStrip, List.reverse_reverse]
  exact dropWhile_headNotWs _

theorem strip_within (s : Str) : pyStrip s <:+: s := by
  have h1 : s.dropWhile pyIsWs <:+ s := List.dropWhile_suffix _
  have h2 : (s.dropWhile pyIsWs).reverse.dropWhile pyIsWs <:+
      (s.dropWhile pyIsWs).reverse := List.dropWhile_suffix _
  have h3 : pyStrip s <+: s.dropWhile pyIsWs := by
    rw [pyStrip]
    rw [← List.reverse_suffix]
    rw [List.reverse_reverse]
    exact h2
  exact h3.isInfix.trans h1.isInfix

theorem noTwoWs_tail {x : Char} {t : Str}
    (h : noTwoWs (x :: t) = true) : noTwoWs t = true := by
  cases t with
  | nil => rfl
  | cons y r =>
    rw [noTwoWs, Bool.and_eq_true] at h
    exact h.2

theorem noTwoWs_append_right : ∀ {xs ys : Str},
    noTwoWs (xs ++ ys) = true → noTwoWs ys = true := by
  intro xs
  induction xs with
  | nil => intro ys h; exact h
  | cons x r ih =>
    intro ys h
    exact ih (noTwoWs_tail h)

theorem noTwoWs_append_left : ∀ {xs ys : Str},
    noTwoWs (xs ++ ys) = true → noTwoWs xs = true := by
  intro xs
  induction xs using noTwoWs.induct with
  | case1 => intro ys h; rfl
  | case2 a => intro ys h; rfl
  | case3 a b r ih =>
    intro ys h
    rw [List.cons_append, List.cons_append] at h
    rw [noTwoWs, Bool.and_eq_true] at h
    rw [noTwoWs, Bool.and_eq_true]
    exact ⟨h.1, ih (by rw [List.cons_append]; exact h.2)⟩

theorem noTwoWs_infix {t s : Str} (h : t <:+: s)
    (hs : noTwoWs s = true) : noTwoWs t = true := by
  obtain ⟨pre, post, rfl⟩ := h
  rw [List.append_assoc] at hs
  exact noTwoWs_append_left (noTwoWs_append_right hs)

theorem wsSpace_of_subset {t s : Str} (h : ∀ x ∈ t, x ∈ s)
    (hs : wsSpace s = true) : wsSpace t = true := by
  rw [wsSpace, List.all_eq_true] at *
  exact fun x hx => hs x (h x hx)

theorem clean_strip_of_parts {s t : Str} (hnt : noTwoWs s = true)
    (hws : wsSpace s = true) (hinf : t <:+: s) :
    cleanB (pyStrip t) = true := by
  rw [cleanB, Bool.and_eq_true, Bool.and_eq_true, Bool.and_eq_true]
  refine ⟨⟨⟨strip_headNotWs t, strip_revHeadNotWs t⟩, ?_⟩, ?_⟩
  · exact noTwoWs_infix ((strip_within t).trans hinf) hnt
  · exact wsSpace_of_subset
      (fun x hx => hinf.subset ((strip_within t).subset hx)) hws

theorem cw_clean (s : Str) : cleanB (collapse_ws s) = true := by
  rw [collapse_ws]
  exact clean_strip_of_parts cr_noTwo cr_space (List.infix_refl _)

theorem dropWhile_of_headNotWs {s : Str} (h : headNotWs s = true) :
    s.dropWhile pyIsWs = s := by
  cases s with
  | nil => rfl
  | cons c t =>
    rw [headNotWs, Bool.not_eq_true'] at h
    exact List.dropWhile_cons_of_neg (by rw [h]; exact Bool.false_ne_true)

theorem strip_fix {s : Str} (h1 : headNotWs s = true)
    (h2 : headNotWs s.reverse = true) : pyStrip s = s := by
  rw [pyStrip, dropWhile_of_headNotWs h1, dropWhile_of_headNotWs h2,
    List.reverse_reverse]

theorem cleanB_parts {s : Str} (h : cleanB s = true) :
    headNotWs s = true ∧ headNotWs s.reverse = true ∧
    noTwoWs s = true ∧ wsSpace s = true := by
  rw [cleanB, Bool.and_eq_true, Bool.and_eq_true, Bool.and_eq_true] at h
  exact ⟨h.1.1.1, h.1.1.2, h.1.2, h.2⟩

theorem cw_fix {s : Str} (h : cleanB s = true) : collapse_ws s = s := by
  obtain ⟨e1, e2, e3, e4⟩ := cleanB_parts h
  rw [collapse_ws, cr_fix e3 e4, strip_fix e1 e2]

theorem cw_idem (s : Str) : collapse_ws (collapse_ws s) = collapse_ws s :=
  cw_fix (cw_clean s)

theorem cr_mem : ∀ {x : Char} {s : Str}, x ∈ collapseRuns s →
    x = ' ' ∨ x ∈ s := by
  intro x s
  induction s with
  | nil => intro h; cases h
  | cons a r ih =>
    cases r with
    | nil =>
      by_cases ha : pyIsWs a = true
      · rw [collapseRuns, if_pos ha]
        intro h
        rcases List.mem_singleton.mp h with rfl
        exact Or.inl rfl
      · rw [collapseRuns, if_neg ha]
        intro h
        rcases List.mem_singleton.mp h with rfl
        exact Or.inr (List.mem_singleton.mpr rfl)
    | cons b r2 =>
      by_cases hab : (pyIsWs a && pyIsWs b) = true
      · rw [collapseRuns, if_pos hab]
        intro h
        rcases ih h with h | h
        · exact Or.inl h
        · exact Or.inr (List.mem_cons_of_mem _ h)
      · rw [collapseRuns, if_neg hab]
        intro h
        rcases List.mem_cons.mp h with rfl | h
        · by_cases ha : pyIsWs a = true
          · rw [if_pos ha]
            exact Or.inl rfl
          · rw [if_neg ha]
            exact Or.inr (List.mem_cons_self _ _)
        · rcases ih h with h | h
          · exact Or.inl h
          · exact Or.inr (List.mem_cons_of_mem _ h)

theorem mem_collapse {x : Char} {s : Str} (h : x ∈ collapse_ws s) :
    x = ' ' ∨ x ∈ s := by
  rw [collapse_ws] at h
  exact cr_mem ((strip_within _).subset h)

theorem toNat_ofNat_small {n : Nat} (h : n < 55296) :
    (Char.ofNat n).toNat = n := by
  rw [Char.ofNat, dif_pos (Or.inl h)]
  simp [Char.ofNatAux, Char.toNat, UInt32.toNat, BitVec.toNat_ofNatLt]

theorem uint32_le_toNat {a b : UInt32} (h : a ≤ b) : a.toNat ≤ b.toNat := by
  rw [UInt32.le_def, BitVec.le_def] at h
  exact h

theorem pyToUpper_bullet {c : Char} (h : pyToUpper c = '■') : c = '■' := by
  rw [pyToUpper] at h
  split_ifs at h with hc
  · exfalso
    rw [Bool.and_eq_true, decide_eq_true_eq, decide_eq_true_eq] at hc
    obtain ⟨h1, h2⟩ := hc
    rw [Char.le_def] at h1 h2
    have hb1 : (97 : Nat) ≤ c.toNat := uint32_le_toNat h1
    have hb2 : c.toNat ≤ 122 := uint32_le_toNat h2
    have ht := congrArg Char.toNat h
    rw [toNat_ofNat_small (by omega)] at ht
    have hbul : ('■' : Char).toNat = 9632 := by decide
    omega
  · exact h

theorem split_head_takeWhile (c : Char) : ∀ l : Str,
    ∃ ps, splitOnChar c l = l.takeWhile (· ≠ c) :: ps := by
  intro l
  induction l with
  | nil => exact ⟨[], rfl⟩
  | cons x r ih =>
    by_cases hx : x = c
    · subst hx
      refine ⟨splitOnChar x r, ?_⟩
      rw [splitOnChar, if_pos rfl]
      rw [List.takeWhile_cons]
      simp
    · obtain ⟨ps, hps⟩ := ih
      refine ⟨ps, ?_⟩
      rw [splitOnChar, if_neg hx, hps]
      rw [List.takeWhile_cons]
      simp [hx]

theorem split_pieces_within (c : Char) : ∀ (l : Str) (p : Str),
    p ∈ splitOnChar c l → p <:+: l := by
  intro l
  induction l with
  | nil =>
    intro p hp
    rcases List.mem_singleton.mp hp with rfl
    exact List.infix_refl _
  | cons x r ih =>
    intro p hp
    by_cases hx : x = c
    · subst hx
      rw [splitOnChar, if_pos rfl] at hp
      rcases List.mem_cons.mp hp with rfl | hp
      · exact List.nil_infix
      · exact List.infix_cons (ih p hp)
    · rw [splitOnChar, if_neg hx] at hp
      obtain ⟨ps, hps⟩ := split_head_takeWhile c r
      rw [hps] at hp
      rcases List.mem_cons.mp hp with rfl | hp
      · refine List.IsPrefix.isInfix ?_
        have : r.takeWhile (· ≠ c) <+: r := List.takeWhile_prefix _
        obtain ⟨t, ht⟩ := this
        exact ⟨t, by rw [List.cons_append, ht]⟩
      · exact List.infix_cons (ih p (by rw [hps]; exact List.mem_cons_of_mem _ hp))

theorem split_no_sep (c : Char) : ∀ (l : Str) (p : Str),
    p ∈ splitOnChar c l → c ∉ p := by
  intro l
  induction l with
  | nil =>
    intro p hp
    rcases List.mem_singleton.mp hp with rfl
    exact List.not_mem_nil c
  | cons x r ih =>
    intro p hp
    by_cases hx : x = c
    · subst hx
      rw [splitOnChar, if_pos rfl] at hp
      rcases List.mem_cons.mp hp with rfl | hp
      · exact List.not_mem_nil _
      · exact ih p hp
    · rw [splitOnChar, if_neg hx] at hp
      cases hsp : splitOnChar c r with
      | nil =>
        rw [hsp] at hp
        rcases List.mem_singleton.mp hp with rfl
        intro hm
        rcases List.mem_singleton.mp hm with rfl
        exact hx rfl
      | cons q qs =>
        rw [hsp] at hp
        rcases List.mem_cons.mp hp with rfl | hp
        · intro hm
          rcases List.mem_cons.mp hm with rfl | hm
          · exact hx rfl
          · exact ih q (by rw [hsp]; exact List.mem_cons_self _ _) hm
        · exact ih p (by rw [hsp]; exact List.mem_cons_of_mem _ hp)

theorem split_not_mem {c : Char} : ∀ {l : Str}, c ∉ l →
    splitOnChar c l = [l] := by
  intro l
  induction l with
  | nil => intro _; rfl
  | cons x r ih =>
    intro h
    have hx : x ≠ c := fun he => h (he ▸ List.mem_cons_self x r)
    rw [splitOnChar, if_neg hx, ih (fun hm => h (List.mem_cons_of_mem _ hm))]

theorem headNotWs_append_elim {s q : Str} (hne : s ≠ [])
    (h : headNotWs (s ++ q) = true) : headNotWs s = true := by
  cases s with
  | nil => rfl
  | cons c t => exact h

theorem clean_bullet {p : Str} (hc : cleanB p = true) (hne : p ≠ [])
    : cleanB ('■' :: ' ' :: p) = true := by
  obtain ⟨e1, e2, e3, e4⟩ := cleanB_parts hc
  rw [cleanB, Bool.and_eq_true, Bool.and_eq_true, Bool.and_eq_true]
  refine ⟨⟨⟨rfl, ?_⟩, ?_⟩, ?_⟩
  · rw [List.reverse_cons, List.reverse_cons, List.append_assoc]
    have hrne : p.reverse ≠ [] := fun h0 => hne (by
      have := congrArg List.reverse h0
      rwa [List.reverse_reverse] at this)
    cases hrv : p.reverse with
    | nil => exact absurd hrv hrne
    | cons c t =>
      rw [hrv] at e2
      exact e2
  · cases p with
    | nil => exact absurd rfl hne
    | cons c t =>
      rw [headNotWs] at e1
      rw [noTwoWs, Bool.and_eq_true]
      constructor
      · decide
      · rw [noTwoWs, Bool.and_eq_true]
        refine ⟨?_, e3⟩
        rw [Bool.not_eq_true'] at e1
        rw [e1]
        decide
  · rw [wsSpace, List.all_cons, List.all_cons, Bool.and_eq_true,
      Bool.and_eq_true]
    exact ⟨by decide, by decide, e4⟩

theorem pass2_mem : ∀ (xs : List Str) (prev : Option Str) (x : Str),
    x ∈ pass2Go prev xs →
    (∃ x0 ∈ xs, x = collapse_ws x0) ∧ x ≠ [] ∧ punctOnly x = false := by
  intro xs
  induction xs with
  | nil => intro prev x hx; cases hx
  | cons x0 r ih =>
    intro prev x hx
    rw [pass2Go] at hx
    by_cases h1 : collapse_ws x0 = [] ∨ punctOnly (collapse_ws x0) = true
    · rw [if_pos (by simpa using h1)] at hx
      obtain ⟨⟨y, hy, hxy⟩, h2, h3⟩ := ih prev x hx
      exact ⟨⟨y, List.mem_cons_of_mem _ hy, hxy⟩, h2, h3⟩
    · rw [if_neg (by simpa using h1)] at hx
      rw [not_or] at h1
      by_cases h2 : prev = some (collapse_ws x0)
      · rw [if_pos h2] at hx
        obtain ⟨⟨y, hy, hxy⟩, h3, h4⟩ := ih prev x hx
        exact ⟨⟨y, List.mem_cons_of_mem _ hy, hxy⟩, h3, h4⟩
      · rw [if_neg h2] at hx
        rcases List.mem_cons.mp hx with rfl | hx
        · exact ⟨⟨x0, List.mem_cons_self _ _, rfl⟩, h1.1,
            Bool.not_eq_true _ ▸ h1.2⟩
        · obtain ⟨⟨y, hy, hxy⟩, h3, h4⟩ := ih (some (collapse_ws x0)) x hx
          exact ⟨⟨y, List.mem_cons_of_mem _ hy, hxy⟩, h3, h4⟩

theorem pass2_chain : ∀ (xs : List Str) (prev : Option Str),
    List.Chain' (fun a b => a ≠ b) (pass2Go prev xs) ∧
    (∀ a, prev = some a → (pass2Go prev xs).head? ≠ some a) := by
  intro xs
  induction xs with
  | nil =>
    intro prev
    exact ⟨List.chain'_nil, fun a _ h => by cases h⟩
  | cons x0 r ih =>
    intro prev
    rw [pass2Go]
    by_cases h1 : collapse_ws x0 = [] ∨ punctOnly (collapse_ws x0) = true
    · rw [if_pos (by simpa using h1)]
      exact ih prev
    · rw [if_neg (by simpa using h1)]
      by_cases h2 : prev = some (collapse_ws x0)
      · rw [if_pos h2]
        exact ih prev
      · rw [if_neg h2]
        obtain ⟨hch, hhd⟩ := ih (some (collapse_ws x0))
        constructor
        · rw [List.chain'_cons']
          refine ⟨?_, hch⟩
          intro y hy he
          apply hhd (collapse_ws x0) rfl
          rw [Option.mem_def] at hy
          rw [hy, he]
        · intro a ha h
          simp only [List.head?_cons, Option.some.injEq] at h
          apply h2
          rw [ha, h]

theorem pass2_id : ∀ (xs : List Str) (prev : Option Str),
    (∀ x ∈ xs, cleanB x = true ∧ x ≠ [] ∧ punctOnly x = false) →
    List.Chain' (fun a b => a ≠ b) xs →
    (∀ a, prev = some a → xs.head? ≠ some a) →
    pass2Go prev xs = xs := by
  intro xs
  induction xs with
  | nil => intro prev _ _ _; rfl
  | cons x r ih =>
    intro prev hall hch hhd
    obtain ⟨hc, hne, hp⟩ := hall x (List.mem_cons_self _ _)
    have hfix : collapse_ws x = x := cw_fix hc
    rw [pass2Go, hfix]
    rw [if_neg (by simp [hne, hp])]
    have hprev : prev ≠ some x := by
      intro he
      exact hhd x he (by rw [List.head?_cons])
    rw [if_neg hprev]
    rw [List.chain'_cons'] at hch
    congr 1
    apply ih (some x)
    · exact fun y hy => hall y (List.mem_cons_of_mem _ hy)
    · exact hch.2
    · intro a ha h
      injection ha with ha2
      subst ha2
      exact hch.1 x (Option.mem_def.mpr h) rfl

theorem flatMap_id {f : Str → List Str} : ∀ {l : List Str},
    (∀ x ∈ l, f x = [x]) → l.flatMap f = l := by
  intro l
  induction l with
  | nil => intro _; rfl
  | cons x r ih =>
    intro h
    rw [List.flatMap_cons, h x (List.mem_cons_self _ _),
      ih (fun y hy => h y (List.mem_cons_of_mem _ hy))]
    rfl

theorem headers_no_bullet : ∀ h ∈ SECTION_HEADERS, '■' ∉ h := by decide

theorem contains_iff_mem {α : Type} [BEq α] [LawfulBEq α] {l : List α}
    {c : α} : l.contains c = true ↔ c ∈ l :=
  List.elem_iff

theorem replaceDS_mem_aux : ∀ (n : Nat) (l : Str), l.length ≤ n →
    ∀ x ∈ pyReplaceDS l, x ∈ l := by
  intro n
  induction n with
  | zero =>
    intro l hl x hx
    cases l with
    | nil => cases hx
    | cons a r => simp at hl
  | succ n ih =>
    intro l hl x hx
    cases l with
    | nil => cases hx
    | cons a r =>
      cases r with
      | nil =>
        rw [pyReplaceDS] at hx
        exact hx
      | cons b r2 =>
        rw [pyReplaceDS] at hx
        by_cases hab : (a = ' ' && b = ' ') = true
        · rw [if_pos hab] at hx
          rcases List.mem_cons.mp hx with rfl | hx
          · rw [Bool.and_eq_true, decide_eq_true_eq, decide_eq_true_eq] at hab
            rw [← hab.1]
            exact List.mem_cons_self _ _
          · have hlen : r2.length ≤ n := by
              simp only [List.length_cons] at hl
              omega
            exact List.mem_cons_of_mem _ (List.mem_cons_of_mem _
              (ih r2 hlen x hx))
        · rw [if_neg hab] at hx
          rcases List.mem_cons.mp hx with rfl | hx
          · exact List.mem_cons_self _ _
          · have hlen : (b :: r2).length ≤ n := by
              simp only [List.length_cons] at hl ⊢
              omega
            exact List.mem_cons_of_mem _ (ih (b :: r2) hlen x hx)

theorem replaceDS_mem {l : Str} {x : Char} (hx : x ∈ pyReplaceDS l) :
    x ∈ l :=
  replaceDS_mem_aux l.length l (Nat.le_refl _) x hx

theorem bullet_mem_upper {l : Str} : '■' ∈ pyUpper l ↔ '■' ∈ l := by
  constructor
  · intro h
    rw [pyUpper, List.mem_map] at h
    obtain ⟨c, hc, he⟩ := h
    rw [pyToUpper_bullet he] at hc
    exact hc
  · intro h
    rw [pyUpper, List.mem_map]
    exact ⟨'■', h, by decide⟩

theorem headerCheckB_false_of_bullet {x : Str} (hc : cleanB x = true)
    (hb : '■' ∈ x) : headerCheckB x = false := by
  obtain ⟨e1, e2, _, _⟩ := cleanB_parts hc
  cases h : headerCheckB x with
  | false => rfl
  | true =>
    exfalso
    rw [headerCheckB, strip_fix e1 e2] at h
    have hm : pyUpper x ∈ SECTION_HEADERS := contains_iff_mem.mp h
    exact headers_no_bullet _ hm (bullet_mem_upper.mpr hb)

theorem headNotWs_of_space_cons {p : Str}
    (h : noTwoWs (' ' :: p) = true) : headNotWs p = true := by
  cases p with
  | nil => rfl
  | cons c t =>
    rw [noTwoWs, Bool.and_eq_true] at h
    have h1 := h.1
    cases hcc : pyIsWs c with
    | false => rw [headNotWs, hcc]; rfl
    | true =>
      exfalso
      rw [show pyIsWs ' ' = true from by decide, hcc] at h1
      simp at h1

theorem strip_space_cons {p : Str} (hph : headNotWs p = true)
    (hpr : headNotWs p.reverse = true) : pyStrip (' ' :: p) = p := by
  rw [pyStrip]
  rw [List.dropWhile_cons_of_pos (by decide)]
  rw [dropWhile_of_headNotWs hph, dropWhile_of_headNotWs hpr,
    List.reverse_reverse]

theorem bullet_shape_parts {x : Str} {p : Str} (hc : cleanB x = true)
    (he : x = '■' :: ' ' :: p) (hpne : p ≠ []) :
    headNotWs p = true ∧ headNotWs p.reverse = true := by
  obtain ⟨e1, e2, e3, e4⟩ := cleanB_parts hc
  rw [he] at e2 e3
  constructor
  · exact headNotWs_of_space_cons (noTwoWs_tail e3)
  · rw [List.reverse_cons, List.reverse_cons, List.append_assoc] at e2
    have hrne : p.reverse ≠ [] := fun h0 => hpne (by
      have := congrArg List.reverse h0
      rwa [List.reverse_reverse] at this)
    exact headNotWs_append_elim hrne e2

theorem processLine_shape : ∀ (z y : Str), y ∈ processLine z → '■' ∈ y →
    ∃ p, y = '■' :: ' ' :: p ∧ '■' ∉ p ∧ p ≠ [] ∧ cleanB y = true := by
  intro z y hy hby
  have hcl : cleanB (collapse_ws z) = true := cw_clean z
  rw [processLine] at hy
  set L := collapse_ws z with hL
  by_cases h1 : L = []
  · rw [if_pos h1] at hy; cases hy
  rw [if_neg h1] at hy
  by_cases h2 : punctOnly L = true
  · rw [if_pos h2] at hy; cases hy
  rw [if_neg h2] at hy
  by_cases h3 : (L.contains '■' && !headerCheckB L) = true
  · rw [if_pos h3] at hy
    cases hparts : (splitOnChar '■' L).map pyStrip with
    | nil => rw [hparts] at hy; cases hy
    | cons p0 ps =>
      rw [hparts] at hy
      rcases List.mem_append.mp hy with hy | hy
      · by_cases hp0 : p0 ≠ []
        · rw [if_pos hp0] at hy
          have he := List.mem_singleton.mp hy
          exfalso
          have hp0mem : p0 ∈ (splitOnChar '■' L).map pyStrip := by
            rw [hparts]; exact List.mem_cons_self _ _
          rw [List.mem_map] at hp0mem
          obtain ⟨piece, hpc, hstq⟩ := hp0mem
          have hbp : '■' ∈ pyStrip piece := by
            rw [hstq]
            exact he ▸ hby
          exact split_no_sep '■' L piece hpc ((strip_within piece).subset hbp)
        · rw [if_neg hp0] at hy; cases hy
      · rw [List.mem_map] at hy
        obtain ⟨p, hp, rfl⟩ := hy
        rw [List.mem_filter] at hp
        have hpne : p ≠ [] := by simpa using hp.2
        have hpmem : p ∈ (splitOnChar '■' L).map pyStrip := by
          rw [hparts]; exact List.mem_cons_of_mem _ hp.1
        rw [List.mem_map] at hpmem
        obtain ⟨piece, hpc, hstq⟩ := hpmem
        have hnb : '■' ∉ p := fun hm =>
          split_no_sep '■' L piece hpc ((strip_within piece).subset (hstq ▸ hm))
        have hclp : cleanB p = true := by
          rw [← hstq]
          obtain ⟨_, _, e3, e4⟩ := cleanB_parts hcl
          exact clean_strip_of_parts e3 e4 (split_pieces_within '■' L piece hpc)
        exact ⟨p, rfl, hnb, hpne, clean_bullet hclp hpne⟩
  · rw [if_neg h3] at hy
    exfalso
    cases hs : headerSearch L with
    | none =>
      rw [hs] at hy
      rcases List.mem_singleton.mp hy with rfl
      have hcont : L.contains '■' = true := contains_iff_mem.mpr hby
      have hck : headerCheckB L = false := headerCheckB_false_of_bullet hcl hby
      exact h3 (by rw [hcont, hck]; rfl)
    | some se =>
      rw [hs] at hy
      obtain ⟨st, en⟩ := se
      have hy2 : y ∈ (if (!headerCheckB L) = true then
          ((if pyStrip (L.take st) ≠ [] then [pyStrip (L.take st)] else []) ++
            [pyReplaceDS (pyUpper ((L.drop st).take (en - st)))] ++
            (if pyStrip (L.drop en) ≠ [] then [pyStrip (L.drop en)] else []))
          else [L]) := hy
      clear hy
      by_cases hck : headerCheckB L = true
      · rw [if_neg (by rw [hck]; simp)] at hy2
        rcases List.mem_singleton.mp hy2 with rfl
        rw [headerCheckB_false_of_bullet hcl hby] at hck
        cases hck
      · rw [if_pos (by
          cases hhh : headerCheckB L
          · rfl
          · exact absurd hhh hck)] at hy2
        have hnbL : '■' ∉ L := by
          intro hbl
          have hcont : L.contains '■' = true := contains_iff_mem.mpr hbl
          have hckf : headerCheckB L = false :=
            headerCheckB_false_of_bullet hcl hbl
          exact h3 (by rw [hcont, hckf]; rfl)
        rcases List.mem_append.mp hy2 with hy | hy
        · rcases List.mem_append.mp hy with hy | hy
          · by_cases hb0 : pyStrip (L.take st) ≠ []
            · rw [if_pos hb0] at hy
              have he := List.mem_singleton.mp hy
              exact hnbL (( List.take_prefix st L).isInfix.subset
                ((strip_within _).subset (he ▸ hby)))
            · rw [if_neg hb0] at hy; cases hy
          · have he := List.mem_singleton.mp hy
            have h5 : '■' ∈ pyUpper ((L.drop st).take (en - st)) :=
              replaceDS_mem (he ▸ hby)
            have h6 : '■' ∈ (L.drop st).take (en - st) :=
              bullet_mem_upper.mp h5
            exact hnbL ((List.drop_suffix st L).isInfix.subset
              (( List.take_prefix (en - st) (L.drop st)).isInfix.subset h6))
        · by_cases hb0 : pyStrip (L.drop en) ≠ []
          · rw [if_pos hb0] at hy
            have he := List.mem_singleton.mp hy
            exact hnbL ((List.drop_suffix en L).isInfix.subset
              ((strip_within _).subset (he ▸ hby)))
          · rw [if_neg hb0] at hy; cases hy

theorem processLine_fix (x : Str) (hc : cleanB x = true) (hne : x ≠ [])
    (hp : punctOnly x = false)
    (hshape : '■' ∈ x → ∃ p, x = '■' :: ' ' :: p ∧ '■' ∉ p ∧ p ≠ [])
    (hH : '■' ∈ x ∨ headerCheckB x = true ∨ headerSearch x = none) :
    processLine x = [x] := by
  have hfix : collapse_ws x = x := cw_fix hc
  rw [processLine, hfix]
  rw [if_neg hne, if_neg (by rw [hp]; exact Bool.false_ne_true)]
  by_cases hb : '■' ∈ x
  · obtain ⟨p, he, hnp, hpne⟩ := hshape hb
    have hcont : x.contains '■' = true := contains_iff_mem.mpr hb
    have hckF : headerCheckB x = false := headerCheckB_false_of_bullet hc hb
    rw [if_pos (by rw [hcont, hckF]; rfl)]
    have hnotin : '■' ∉ (' ' :: p) := by
      intro hm
      rcases List.mem_cons.mp hm with h0 | h0
      · cases h0
      · exact hnp h0
    have hsplit : splitOnChar '■' x = [[], ' ' :: p] := by
      rw [he, splitOnChar, if_pos rfl, split_not_mem hnotin]
    obtain ⟨hph, hpr⟩ := bullet_shape_parts hc he hpne
    have hstripsp : pyStrip (' ' :: p) = p := strip_space_cons hph hpr
    rw [hsplit]
    simp only [List.map_cons, List.map_nil, hstripsp]
    have hstripnil : pyStrip ([] : Str) = [] := rfl
    rw [hstripnil]
    simp [hpne, he]
  · have hcont : x.contains '■' = false := by
      cases h : x.contains '■' with
      | false => rfl
      | true => exact absurd (contains_iff_mem.mp h) hb
    rw [if_neg (by rw [hcont]; simp)]
    rcases hH with hH | hH | hH
    · exact absurd hH hb
    · cases hs : headerSearch x with
      | none => rfl
      | some se =>
        obtain ⟨st, en⟩ := se
        have hgoal : (if (!headerCheckB x) = true then
            ((if pyStrip (x.take st) ≠ [] then [pyStrip (x.take st)] else []) ++
              [pyReplaceDS (pyUpper ((x.drop st).take (en - st)))] ++
              (if pyStrip (x.drop en) ≠ [] then [pyStrip (x.drop en)] else []))
            else [x]) = [x] := by
          rw [if_neg (by rw [hH]; simp)]
        exact hgoal
    · rw [hH]

theorem preprocess_inv (S : List Str) : ∀ x ∈ preprocess_lines S,
    cleanB x = true ∧ x ≠ [] ∧ punctOnly x = false ∧
    ('■' ∈ x → ∃ p, x = '■' :: ' ' :: p ∧ '■' ∉ p ∧ p ≠ []) := by
  intro x hx
  rw [preprocess_lines] at hx
  obtain ⟨⟨x0, hx0, hxe⟩, hne, hp⟩ := pass2_mem _ _ _ hx
  refine ⟨by rw [hxe]; exact cw_clean x0, hne, hp, ?_⟩
  intro hb
  have hbx0 : '■' ∈ x0 := by
    rcases mem_collapse (hxe ▸ hb) with h | h
    · cases h
    · exact h
  rw [List.mem_flatMap] at hx0
  obtain ⟨z, hz, hx0z⟩ := hx0
  obtain ⟨p, he, hn1, hn2, hcl⟩ := processLine_shape z x0 hx0z hbx0
  have hxx0 : x = x0 := by rw [hxe, cw_fix hcl]
  exact ⟨p, by rw [hxx0, he], hn1, hn2⟩

/-- Claim C4 (amended): line normalisation is idempotent on every
input whose normalised output consists, per line, of a bullet line, an
exact section-header line, or a line with no word-bounded
section-header keyword occurrence; in general a non-header line that
still contains a header keyword is split again by a second pass. -/
theorem C4_amended (S : List Str)
    (H : ∀ x ∈ preprocess_lines S,
      '■' ∈ x ∨ headerCheckB x = true ∨ headerSearch x = none) :
    preprocess_lines (preprocess_lines S) = preprocess_lines S := by
  have hinv := preprocess_inv S
  have hfix : ∀ x ∈ preprocess_lines S, processLine x = [x] := fun x hx =>
    processLine_fix x (hinv x hx).1 (hinv x hx).2.1 (hinv x hx).2.2.1
      (hinv x hx).2.2.2 (H x hx)
  have hch : List.Chain' (fun a b => a ≠ b) (preprocess_lines S) := by
    rw [preprocess_lines]
    exact (pass2_chain _ none).1
  have h1 : preprocess_lines (preprocess_lines S) =
      pass2Go none ((preprocess_lines S).flatMap processLine) := rfl
  rw [h1, flatMap_id hfix]
  exact pass2_id _ none
    (fun x hx => ⟨(hinv x hx).1, (hinv x hx).2.1, (hinv x hx).2.2.1⟩)
    hch (fun a ha => by cases ha)

theorem C4_amended_witness :
    (∀ x ∈ preprocess_lines
        ["Jane Doe".data, "a ■ b ■ c".data, "SUMMARY".data],
      '■' ∈ x ∨ headerCheckB x = true ∨ headerSearch x = none) ∧
    preprocess_lines (preprocess_lines
        ["Jane Doe".data, "a ■ b ■ c".data, "SUMMARY".data]) =
      preprocess_lines ["Jane Doe".data, "a ■ b ■ c".data, "SUMMARY".data] :=
  ⟨by decide, C4_amended _ (by decide)⟩
